import Mathlib

/-!
# Verification of the numba `arraymath` kernels

A shallow embedding, in Lean 4, of the array-processing kernels of
`numba/targets/arraymath.py`: order statistics (partition / select /
median / percentile), reductions (min / max / argmin, axis-restricted
sum, covariance), interpolation, searchsorted, histogram and the window
generators.

Modelling conventions:

* NumPy arrays are modelled as Lean `List`s (1-D) or a shape/flat-data
  pair (N-D); in-place mutation becomes explicit state passing.
* Machine floating-point values are modelled exactly: the payload is an
  exact rational and the non-finite values NaN, +inf and -inf are
  explicit constructors of `RVal`.  IEEE comparison semantics (NaN is
  unordered) are reproduced in `rlt` / `rle` / `req`.  Rounding of
  arithmetic is not modelled: arithmetic on finite payloads is exact.
* Integer and float dtypes that only ever flow through comparisons and
  exact arithmetic are modelled as `ℚ`.
* Python `raise` becomes `Except Err`; the distinct raise sites are the
  constructors of `Err`.
* `while` loops become structurally recursive functions driven by an
  explicit fuel argument; every wrapper passes fuel that is proved (or,
  for the loops of the quickselect family, provable from the loop
  variant) to dominate the number of iterations actually taken, so the
  fuel-exhaustion branch is unreachable in the verified regime.
-/

namespace NumbaSpec

/-- The distinct raise sites of the kernels.  Every constructor except
`assertionFailed` (Python `assert`, an `AssertionError`) and
`fuelExhausted` (an artifact of the fuel encoding of `while True`
loops, unreachable under the proved preconditions) models a Python
`ValueError`. -/
inductive Err where
  /-- `ValueError` "zero-size array to reduction operation minimum which has no identity" -/
  | zeroSizeMinimum : Err
  /-- `ValueError` "zero-size array to reduction operation maximum which has no identity" -/
  | zeroSizeMaximum : Err
  /-- `ValueError` "attempt to get argmin of an empty sequence" -/
  | argminEmptySequence : Err
  /-- Python `assert` failure (an `AssertionError`, not a `ValueError`). -/
  | assertionFailed : Err
  /-- Fuel ran out: artifact of the loop encoding, unreachable under the
  preconditions established in this file. -/
  | fuelExhausted : Err
  /-- `ValueError` "kth must be scalar or 1-D" -/
  | kthMustBe1D : Err
  /-- `ValueError` "kth out of bounds" -/
  | kthOutOfBounds : Err
  /-- `ValueError` "Percentiles must be in the range [0, 100]" -/
  | percentileOutOfRange : Err
  /-- `ValueError` "array of sample points is empty" -/
  | sampleArrayEmpty : Err
  /-- `ValueError` "fp and xp are not of the same size." -/
  | sampleSizeMismatch : Err
  /-- `ValueError` "histogram(): `bins` should be a positive integer" -/
  | binsNotPositive : Err
  /-- `ValueError` "histogram(): max must be larger than min in range parameter" -/
  | rangeMaxLtMin : Err
  /-- `ValueError` "Numba does not support sum with axis parameter outside the range 0 to 3." -/
  | axisNotInRange03 : Err
  /-- `ValueError` "axis is out of bounds for array" -/
  | axisOutOfBounds : Err
  /-- `ValueError` "axis entry is out of bounds" (raised at specialization time
  for a literal axis). -/
  | axisLiteralOutOfBounds : Err
  deriving DecidableEq, Repr

instance {e s : Type} [DecidableEq e] [DecidableEq s] :
    DecidableEq (Except e s)
  | .error a, .error b =>
      if h : a = b then .isTrue (by rw [h])
      else .isFalse (by intro hh; injection hh; exact h (by assumption))
  | .error _, .ok _ => .isFalse (by intro hh; injection hh)
  | .ok _, .error _ => .isFalse (by intro hh; injection hh)
  | .ok a, .ok b =>
      if h : a = b then .isTrue (by rw [h])
      else .isFalse (by intro hh; injection hh; exact h (by assumption))

/-- Is this error a Python `ValueError`?  (`assert` failures and the fuel
artifact are not.) -/
def Err.isValueError : Err → Bool
  | .assertionFailed => false
  | .fuelExhausted => false
  | _ => true

/-! ## Scalar model: IEEE-style extended rationals

`RVal` models a float64: an exact rational payload, or one of the
non-finite values.  Comparisons reproduce IEEE semantics (any
comparison against NaN is false). -/

/-- A float64 value: NaN, -inf, +inf, or a finite (exact rational) value. -/
inductive RVal where
  | nan : RVal
  | ninf : RVal
  | pinf : RVal
  | fin (q : ℚ) : RVal
  deriving DecidableEq, Repr

instance : Inhabited RVal := ⟨RVal.nan⟩

namespace RVal

/-- `np.isnan`. -/
def isnan : RVal → Bool
  | .nan => true
  | _ => false

/-- `np.isfinite`. -/
def isfinite : RVal → Bool
  | .fin _ => true
  | _ => false

/-- IEEE `<` on float64: false whenever either side is NaN. -/
def rlt : RVal → RVal → Bool
  | .nan, _ => false
  | _, .nan => false
  | .ninf, .ninf => false
  | .ninf, _ => true
  | _, .ninf => false
  | .pinf, _ => false
  | .fin _, .pinf => true
  | .fin a, .fin b => a < b

/-- IEEE `==` on float64: false whenever either side is NaN. -/
def req : RVal → RVal → Bool
  | .ninf, .ninf => true
  | .pinf, .pinf => true
  | .fin a, .fin b => decide (a = b)
  | _, _ => false

/-- IEEE `<=` on float64: false whenever either side is NaN. -/
def rle : RVal → RVal → Bool
  | .nan, _ => false
  | _, .nan => false
  | .ninf, _ => true
  | _, .ninf => false
  | _, .pinf => true
  | .pinf, _ => false
  | .fin a, .fin b => a ≤ b

/-- IEEE negation. -/
def rneg : RVal → RVal
  | .nan => .nan
  | .ninf => .pinf
  | .pinf => .ninf
  | .fin q => .fin (-q)

/-- IEEE addition (exact on finite payloads): NaN propagates,
`+inf + -inf = NaN`. -/
def radd : RVal → RVal → RVal
  | .nan, _ => .nan
  | _, .nan => .nan
  | .pinf, .ninf => .nan
  | .ninf, .pinf => .nan
  | .pinf, _ => .pinf
  | .ninf, _ => .ninf
  | .fin _, .pinf => .pinf
  | .fin _, .ninf => .ninf
  | .fin a, .fin b => .fin (a + b)

/-- IEEE subtraction. -/
def rsub (a b : RVal) : RVal := radd a (rneg b)

/-- IEEE multiplication (exact on finite payloads): NaN propagates,
`inf * 0 = NaN`, otherwise infinities keep the sign rule. -/
def rmul : RVal → RVal → RVal
  | .nan, _ => .nan
  | _, .nan => .nan
  | .pinf, .pinf => .pinf
  | .pinf, .ninf => .ninf
  | .ninf, .pinf => .ninf
  | .ninf, .ninf => .pinf
  | .pinf, .fin q => if q = 0 then .nan else if 0 < q then .pinf else .ninf
  | .ninf, .fin q => if q = 0 then .nan else if 0 < q then .ninf else .pinf
  | .fin q, .pinf => if q = 0 then .nan else if 0 < q then .pinf else .ninf
  | .fin q, .ninf => if q = 0 then .nan else if 0 < q then .ninf else .pinf
  | .fin a, .fin b => .fin (a * b)

/-- IEEE division (exact on finite payloads): NaN propagates,
`inf / inf = NaN`, `0 / 0 = NaN`, a nonzero finite value divided by zero
gives a signed infinity (the unsigned rational zero is treated as `+0`). -/
def rdiv : RVal → RVal → RVal
  | .nan, _ => .nan
  | _, .nan => .nan
  | .pinf, .pinf => .nan
  | .pinf, .ninf => .nan
  | .ninf, .pinf => .nan
  | .ninf, .ninf => .nan
  | .pinf, .fin q => if 0 ≤ q then .pinf else .ninf
  | .ninf, .fin q => if 0 ≤ q then .ninf else .pinf
  | .fin _, .pinf => .fin 0
  | .fin _, .ninf => .fin 0
  | .fin a, .fin b =>
      if b = 0 then (if a = 0 then .nan else if 0 < a then .pinf else .ninf)
      else .fin (a / b)

end RVal

export RVal (rlt rle req radd rsub rmul rdiv)

/-! ### Order transfer

On its non-NaN values, and with NaN placed above everything (the order
used by the NaN-aware comparator of the source), `RVal` is a linear
order.  `toX` realises that order inside
`WithTop (WithBot (WithTop ℚ))`, which lets all binary-search reasoning
reuse Mathlib's linear-order lemmas. -/

/-- The NaN-aware total order target: `ninf < fin q < pinf < nan`. -/
abbrev XOrd : Type := WithTop (WithBot (WithTop ℚ))

/-- Embed `RVal` into the NaN-aware total order. -/
def RVal.toX : RVal → XOrd
  | .nan => ⊤
  | .ninf => ((⊥ : WithBot (WithTop ℚ)) : XOrd)
  | .pinf => (((⊤ : WithTop ℚ) : WithBot (WithTop ℚ)) : XOrd)
  | .fin q => (((q : WithTop ℚ) : WithBot (WithTop ℚ)) : XOrd)

theorem RVal.toX_inj : Function.Injective RVal.toX := by
  intro a b h
  cases a <;> cases b <;> simp [toX] at h ⊢ <;> exact h

/-- The NaN-aware total order on `RVal`: `ninf < fin q < pinf < nan`.
This is the order in which `nan_aware_less_than` sorts values (NaN
greater than everything); on non-NaN values it agrees with the IEEE
comparisons. -/
instance : LinearOrder RVal := LinearOrder.lift' RVal.toX RVal.toX_inj

theorem RVal.le_def {a b : RVal} : a ≤ b ↔ a.toX ≤ b.toX := Iff.rfl

theorem RVal.lt_def {a b : RVal} : a < b ↔ a.toX < b.toX := by
  rw [lt_iff_le_not_le, lt_iff_le_not_le]
  exact Iff.rfl

open RVal in
/-- IEEE `<` agrees with the NaN-aware order whenever the right side is
not NaN (the left side may be anything, NaN included). -/
theorem rlt_eq_decide_lt {a b : RVal} (hb : b.isnan = false) :
    rlt a b = decide (a < b) := by
  cases a <;> cases b <;>
    simp_all [rlt, lt_def, toX, isnan, bot_lt_iff_ne_bot, lt_top_iff_ne_top]

open RVal in
/-- IEEE `<=` agrees with the NaN-aware order whenever the right side is
not NaN (the left side may be anything, NaN included). -/
theorem rle_eq_decide_le {a b : RVal} (hb : b.isnan = false) :
    rle a b = decide (a ≤ b) := by
  cases a <;> cases b <;>
    simp_all [rle, le_def, toX, isnan, bot_lt_iff_ne_bot, lt_top_iff_ne_top,
      top_le_iff, le_bot_iff]

open RVal in
/-- IEEE `==` agrees with equality whenever the left side is not NaN. -/
theorem req_eq_decide_eq {a b : RVal} (ha : a.isnan = false) :
    req a b = decide (a = b) := by
  cases a <;> cases b <;> simp_all [req, isnan]

theorem RVal.le_nan (a : RVal) : a ≤ RVal.nan := by
  rw [RVal.le_def]; exact le_top

theorem RVal.isnan_eq_false_iff {a : RVal} : a.isnan = false ↔ a ≠ RVal.nan := by
  cases a <;> simp [RVal.isnan]

/-! ## The array model

A NumPy 1-D array is modelled as a `List`.  Reading (`aget`) returns the
default element out of bounds and writing (`aset`) is a no-op out of
bounds; in the verified regime every access is in bounds.  `aswap`
models the Python tuple-swap `A[i], A[j] = A[j], A[i]`. -/

variable {α : Type} [Inhabited α]

/-- `A[i]` (out of bounds: the default element, never reached in the
verified regime). -/
def aget (A : List α) (i : ℕ) : α := A.getD i default

/-- `A[i] = v` (out of bounds: no-op, never reached in the verified
regime). -/
def aset (A : List α) (i : ℕ) (v : α) : List α := A.set i v

/-- `A[i], A[j] = A[j], A[i]`. -/
def aswap (A : List α) (i j : ℕ) : List α := aset (aset A i (aget A j)) j (aget A i)

@[simp] theorem length_aset (A : List α) (i : ℕ) (v : α) :
    (aset A i v).length = A.length := List.length_set ..

@[simp] theorem length_aswap (A : List α) (i j : ℕ) :
    (aswap A i j).length = A.length := by
  simp [aswap]

theorem aget_aset_self {A : List α} {i : ℕ} (h : i < A.length) (v : α) :
    aget (aset A i v) i = v := by
  simp [aget, aset, List.getD, List.getElem?_set_self' , h]

theorem aget_aset_ne (A : List α) {i j : ℕ} (h : i ≠ j) (v : α) :
    aget (aset A i v) j = aget A j := by
  simp [aget, aset, List.getD, List.getElem?_set_ne h]

theorem aget_aswap_left {A : List α} {i j : ℕ} (hi : i < A.length) (hj : j < A.length) :
    aget (aswap A i j) i = aget A j := by
  unfold aswap
  rcases eq_or_ne j i with rfl | h
  · rw [aget_aset_self (by simpa using hi)]
  · rw [aget_aset_ne _ h, aget_aset_self hi]

theorem aget_aswap_right {A : List α} {i j : ℕ} (hj : j < A.length) :
    aget (aswap A i j) j = aget A i := by
  unfold aswap
  rw [aget_aset_self (by simpa using hj)]

theorem aget_aswap_other (A : List α) {i j t : ℕ} (hti : t ≠ i) (htj : t ≠ j) :
    aget (aswap A i j) t = aget A t := by
  unfold aswap
  rw [aget_aset_ne _ (Ne.symm htj), aget_aset_ne _ (Ne.symm hti)]

/-- Swapping two positions of a list (expressed through `set`/`getD`)
yields a permutation: auxiliary step. -/
theorem cons_getD_set_perm :
    ∀ (t : List α) (v : ℕ) (x : α), v < t.length →
      List.Perm ((t.getD v default) :: (t.set v x)) (x :: t) := by
  intro t
  induction t with
  | nil => intro v x h; simp at h
  | cons y s ih =>
    intro v x h
    cases v with
    | zero => simpa using List.Perm.swap x y s
    | succ v =>
      have hv : v < s.length := by simpa using h
      have h1 : ((y :: s).getD (v+1) default) :: ((y :: s).set (v+1) x)
          = (s.getD v default) :: y :: s.set v x := by simp
      rw [h1]
      exact ((List.Perm.swap _ _ _).trans ((ih v x hv).cons y)).trans
        (List.Perm.swap _ _ _)

/-- Writing `l[j]` into position `i` and `l[i]` into position `j` is a
permutation of `l`: list-level transposition. -/
theorem set_set_perm (l : List α) :
    ∀ u v : ℕ, u < l.length → v < l.length →
      List.Perm ((l.set u (l.getD v default)).set v (l.getD u default)) l := by
  induction l with
  | nil => intro u v hu; simp at hu
  | cons x t ih =>
    intro u v hu hv
    cases u with
    | zero =>
      cases v with
      | zero => simp
      | succ v =>
        have hv' : v < t.length := by simpa using hv
        have h1 : ((x :: t).set 0 ((x :: t).getD (v+1) default)).set (v+1) ((x :: t).getD 0 default)
            = (t.getD v default) :: t.set v x := by simp
        rw [h1]
        exact cons_getD_set_perm t v x hv'
    | succ u =>
      have hu' : u < t.length := by simpa using hu
      cases v with
      | zero =>
        have h1 : ((x :: t).set (u+1) ((x :: t).getD 0 default)).set 0 ((x :: t).getD (u+1) default)
            = (t.getD u default) :: t.set u x := by simp
        rw [h1]
        exact cons_getD_set_perm t u x hu'
      | succ v =>
        have hv' : v < t.length := by simpa using hv
        have h1 : ((x :: t).set (u+1) ((x :: t).getD (v+1) default)).set (v+1) ((x :: t).getD (u+1) default)
            = x :: ((t.set u (t.getD v default)).set v (t.getD u default)) := by simp
        rw [h1]
        exact (ih u v hu' hv').cons x

/-- `aswap` inside any window is a permutation of the whole list. -/
theorem aswap_perm (A : List α) {i j : ℕ} (hi : i < A.length) (hj : j < A.length) :
    List.Perm (aswap A i j) A := by
  unfold aswap aset aget
  exact set_set_perm A i j hi hj

/-! ### Segments

`segx A a b` is the half-open segment `A[a:b]`, expressed as a map over
`List.range` so that positional reasoning is uniform. -/

/-- The segment `A[a:b]` (half-open). -/
def segx (A : List α) (a b : ℕ) : List α :=
  (List.range (b - a)).map (fun t => aget A (a + t))

@[simp] theorem length_segx (A : List α) (a b : ℕ) : (segx A a b).length = b - a := by
  simp [segx]

theorem segx_getD (A : List α) (a b t : ℕ) (h : t < b - a) :
    (segx A a b).getD t default = aget A (a + t) := by
  simp [segx, List.getD, List.getElem?_map, List.getElem?_range h]

theorem segx_eq_nil (A : List α) {a b : ℕ} (h : b ≤ a) : segx A a b = [] := by
  simp [segx, Nat.sub_eq_zero_of_le h]

theorem segx_append (A : List α) {a b c : ℕ} (hab : a ≤ b) (hbc : b ≤ c) :
    segx A a c = segx A a b ++ segx A b c := by
  have h1 : c - a = (b - a) + (c - b) := by omega
  rw [segx, segx, segx, h1, List.range_add, List.map_append, List.map_map]
  congr 1
  apply List.map_congr_left
  intro t _
  simp only [Function.comp]
  congr 1
  omega

theorem segx_singleton (A : List α) (a : ℕ) : segx A a (a + 1) = [aget A a] := by
  simp [segx, List.range_succ]

/-- Segments ignore everything outside their window: if two lists of the
same length agree on `[a, b)` then their `[a, b)` segments are equal. -/
theorem segx_congr {A B : List α} (h : ∀ t, a ≤ t → t < b → aget A t = aget B t) :
    segx A a b = segx B a b := by
  apply List.map_congr_left
  intro t ht
  rw [List.mem_range] at ht
  exact h (a + t) (Nat.le_add_right a t) (by omega)

/-- A swap of two positions inside the window permutes the segment. -/
theorem segx_aswap_perm (A : List α) {a b i j : ℕ} (hai : a ≤ i) (hib : i < b)
    (haj : a ≤ j) (hjb : j < b) (hbl : b ≤ A.length) :
    List.Perm (segx (aswap A i j) a b) (segx A a b) := by
  have hil : i < A.length := lt_of_lt_of_le hib hbl
  have hjl : j < A.length := lt_of_lt_of_le hjb hbl
  have hseg : segx (aswap A i j) a b
      = ((segx A a b).set (i - a) (aget A j)).set (j - a) (aget A i) := by
    apply List.ext_getElem
    · simp
    · intro t h1 h2
      have htb : t < b - a := by simpa using h1
      rw [← List.getD_eq_getElem _ default h1, ← List.getD_eq_getElem _ default h2]
      rw [segx_getD _ _ _ _ htb]
      rcases eq_or_ne (a + t) j with hj' | hj'
      · have ht' : t = j - a := by omega
        subst ht'
        rw [show a + (j - a) = j from by omega]
        rw [aget_aswap_right hjl]
        have hlen : j - a < ((segx A a b).set (i - a) (aget A j)).length := by
          simp; omega
        rw [List.getD, List.get?_set_eq_of_lt _ (by simpa using hlen)]
        simp
      · rcases eq_or_ne (a + t) i with hi' | hi'
        · have hti : t = i - a := by omega
          subst hti
          rw [show a + (i - a) = i from by omega]
          rw [aget_aswap_left hil hjl]
          have hne : j - a ≠ i - a := by omega
          rw [List.getD, List.get?_set_ne _ _ hne]
          have hlen2 : i - a < (segx A a b).length := by simp; omega
          rw [List.get?_set_eq_of_lt _ (by simpa using hlen2)]
          simp
        · rw [aget_aswap_other _ hi' hj']
          have hne1 : j - a ≠ t := by omega
          have hne2 : i - a ≠ t := by omega
          rw [List.getD, List.get?_set_ne _ _ hne1, List.get?_set_ne _ _ hne2]
          rw [← List.getD, segx_getD _ _ _ _ htb]
  rw [hseg]
  have h1 : aget A j = (segx A a b).getD (i - a) default ∨
      aget A j = ((segx A a b)).getD (j - a) default := by
    right
    rw [segx_getD _ _ _ _ (by omega)]
    congr 1
    omega
  -- rewrite the two written values as reads of the segment itself, then
  -- close with the transposition permutation
  have hvj : aget A j = (segx A a b).getD (j - a) default := by
    rw [segx_getD _ _ _ _ (by omega)]; congr 1; omega
  have hvi : aget A i = (segx A a b).getD (i - a) default := by
    rw [segx_getD _ _ _ _ (by omega)]; congr 1; omega
  rw [hvj, hvi]
  exact set_set_perm _ (i - a) (j - a) (by simp; omega) (by simp; omega)

/-! ## Order statistics: partition / select / median

Faithful embedding of `_partition_factory`, `_select_factory`,
`_select_two`, `_median_inner` and `np.median` from
`numba/targets/arraymath.py`.  The Python functions are polymorphic in
the array dtype and parameterized by the comparator
(`less_than` or `nan_aware_less_than`); the embedding keeps that
parameterization.  `while` loops are driven by fuel; each wrapper
passes one more than the loop variant, so fuel exhaustion is
unreachable. -/

/-- `less_than(a, b) = a < b` (the total-order comparator, here at the
exact-rational model of the numeric dtypes). -/
def less_than (a b : ℚ) : Bool := decide (a < b)

/-- `nan_aware_less_than`: NaN compares greater than everything. -/
def nan_aware_less_than (a b : RVal) : Bool :=
  if a.isnan then false
  else if b.isnan then true
  else rlt a b

/-- Inner `while i < high and pivotimpl(A[i], pivot): i += 1` of
`_partition`, with explicit fuel. -/
def scanIF (lt : α → α → Bool) (A : List α) (pivot : α) (high : ℕ) :
    ℕ → ℕ → ℕ
  | 0, i => i
  | fuel+1, i =>
      if decide (i < high) && lt (aget A i) pivot then
        scanIF lt A pivot high fuel (i+1)
      else i

/-- The `i`-scan of `_partition`; `high - i` iterations suffice, and the
loop stops exactly when the fuel would run out. -/
def scanI (lt : α → α → Bool) (A : List α) (pivot : α) (high i : ℕ) : ℕ :=
  scanIF lt A pivot high (high - i) i

/-- Inner `while j >= low and pivotimpl(pivot, A[j]): j -= 1` of
`_partition`, with explicit fuel.  `j` can legitimately go to `low - 1`
(so to `-1`), hence the integer index. -/
def scanJF (lt : α → α → Bool) (A : List α) (pivot : α) (low : ℕ) :
    ℕ → ℤ → ℤ
  | 0, j => j
  | fuel+1, j =>
      if decide ((low : ℤ) ≤ j) && lt pivot (aget A j.toNat) then
        scanJF lt A pivot low fuel (j-1)
      else j

/-- The `j`-scan of `_partition`. -/
def scanJ (lt : α → α → Bool) (A : List α) (pivot : α) (low : ℕ) (j : ℤ) : ℤ :=
  scanJF lt A pivot low (j + 1 - low).toNat j

/-- The `while True` swap loop of `_partition`, with explicit fuel.
Each iteration strictly shrinks `j - i`, so `(j - i + 1).toNat + 1`
dominates the iteration count for every input. -/
def partitionLoopF (lt : α → α → Bool) (pivot : α) (low high : ℕ) :
    ℕ → List α → ℕ → ℤ → List α × ℕ
  | 0, A, i, _ => (A, i)
  | fuel+1, A, i, j =>
      let i2 := scanI lt A pivot high i
      let j2 := scanJ lt A pivot low j
      if j2 ≤ (i2 : ℤ) then (A, i2)
      else partitionLoopF lt pivot low high fuel (aswap A i2 j2.toNat) (i2+1) (j2-1)

/-- `_partition_factory(pivotimpl)`: median-of-three pivot choice, then
the Hoare-style swap loop; returns the final array and the pivot's
resting index (all items before it compare no greater, all items at or
after it compare no smaller). -/
def _partition_factory (lt : α → α → Bool) (A : List α) (low high : ℕ) :
    List α × ℕ :=
  let mid := (low + high) >>> 1
  -- median of three {low, middle, high} as the pivot
  let A1 := if lt (aget A mid) (aget A low) then aswap A low mid else A
  let A2 := if lt (aget A1 high) (aget A1 mid) then aswap A1 high mid else A1
  let A3 := if lt (aget A2 mid) (aget A2 low) then aswap A2 low mid else A2
  let pivot := aget A3 mid
  let A4 := aswap A3 high mid
  let r := partitionLoopF lt pivot low high
    ((((high : ℤ) - 1) + 1 - low).toNat + 1) A4 low ((high : ℤ) - 1)
  (aswap r.1 r.2 high, r.2)

/-- `_partition = _partition_factory(less_than)` (total order, exact
rationals). -/
def _partition (A : List ℚ) (low high : ℕ) : List ℚ × ℕ :=
  _partition_factory less_than A low high

/-- `_partition_w_nan = _partition_factory(nan_aware_less_than)`. -/
def _partition_w_nan (A : List RVal) (low high : ℕ) : List RVal × ℕ :=
  _partition_factory nan_aware_less_than A low high

/-- The `while i != k` loop of `_select_factory`, with explicit fuel;
returns the array state after all partitioning (the source mutates in
place and then reads `arry[k]`).  Each iteration strictly shrinks
`high - low`, so `high + 1 - low` iterations suffice whenever
`low ≤ k ≤ high`. -/
def _select_loop (partitionimpl : List α → ℕ → ℕ → List α × ℕ) :
    ℕ → List α → ℕ → ℕ → ℕ → List α
  | 0, A, _, _, _ => A
  | fuel+1, A, k, low, high =>
      let r := partitionimpl A low high
      if r.2 = k then r.1
      else if r.2 < k then _select_loop partitionimpl fuel r.1 k (r.2+1) high
      else _select_loop partitionimpl fuel r.1 k low (r.2-1)

/-- Array state after `_select_factory(partitionimpl)(arry, k, low, high)`. -/
def _select_arr (partitionimpl : List α → ℕ → ℕ → List α × ℕ)
    (A : List α) (k low high : ℕ) : List α :=
  _select_loop partitionimpl (high + 1 - low) A k low high

/-- `_select(arry, k, low, high)`: the k'th smallest element of
`arry[low:high+1]` (the value the mutated array holds at index `k`). -/
def _select (A : List ℚ) (k low high : ℕ) : ℚ :=
  aget (_select_arr _partition A k low high) k

/-- `_select_w_nan = _select_factory(_partition_w_nan)`. -/
def _select_w_nan (A : List RVal) (k low high : ℕ) : List RVal :=
  _select_arr _partition_w_nan A k low high

/-- The `while True` loop of `_select_two`, with explicit fuel.  The
loop asserts `high > low` on every iteration (Python `assert`, raising
`AssertionError` when violated — this is what a zero-size median hits).
Indices are integers because `np.median` calls this with `k = -1`,
`high = -1` on a zero-size array. -/
def _select_two_loop (lt : α → α → Bool) :
    ℕ → List α → ℤ → ℤ → ℤ → Except Err (List α)
  | 0, _, _, _, _ => .error .fuelExhausted
  | fuel+1, A, k, low, high =>
      if ¬ (low < high) then .error .assertionFailed
      else
        let r := _partition_factory lt A low.toNat high.toNat
        let i : ℤ := r.2
        if i < k then _select_two_loop lt fuel r.1 k (i+1) high
        else if k + 1 < i then _select_two_loop lt fuel r.1 k low (i-1)
        else if i = k then
          .ok (_select_arr (_partition_factory lt) r.1 (k+1).toNat (i+1).toNat high.toNat)
        else
          .ok (_select_arr (_partition_factory lt) r.1 k.toNat low.toNat (i-1).toNat)

/-- `_select_two(arry, k, low, high)`: the k'th and (k+1)'th smallest
elements of `arry[low:high+1]` in one narrowing pass (plus the final
array state). -/
def _select_two (lt : α → α → Bool) (A : List α) (k low high : ℤ) :
    Except Err (List α × α × α) :=
  match _select_two_loop lt ((high - low).toNat + 1) A k low high with
  | .error e => .error e
  | .ok C => .ok (C, aget C k.toNat, aget C (k+1).toNat)

/-- `_median_inner(temp_arry, n)`: even length averages the two middle
order statistics obtained by `_select_two`; odd length takes a single
`_select`.  There is no zero-size check: `n = 0` reaches `_select_two`
with `k = -1, low = 0, high = -1` and fails its assertion. -/
def _median_inner (temp : List ℚ) (n : ℕ) : Except Err ℚ :=
  let half : ℕ := n >>> 1
  if n % 2 = 0 then
    match _select_two less_than temp ((half : ℤ) - 1) 0 ((n : ℤ) - 1) with
    | .error e => .error e
    | .ok (_, a, b) => .ok ((a + b) / 2)
  else
    .ok (_select temp half 0 (n - 1))

/-- `np.median` on a 1-D array: the kernel works on `a.flatten()` — a
fresh copy, so the caller's array is never mutated; for a 1-D input the
flattened copy holds exactly the same values, so the embedding passes
the value list through. -/
def np_median (a : List ℚ) : Except Err ℚ :=
  _median_inner a a.length

/-! ## min / max / argmin

The generic (non-datetime, non-complex) lowering paths of
`array_min` / `array_max` / `array_argmin`, parameterized by the dtype's
comparator exactly as the source's per-dtype specializations are. -/

/-- `array_min_impl`: raise on zero size, else a single forward pass
keeping the running minimum (`if v < min_value`). -/
def array_min_impl (lt : α → α → Bool) (arry : List α) : Except Err α :=
  match arry with
  | [] => .error .zeroSizeMinimum
  | v0 :: rest =>
      .ok (rest.foldl (fun mn v => if lt v mn then v else mn) v0)

/-- `array_max_impl`: raise on zero size, else a single forward pass
keeping the running maximum (`if v > max_value`). -/
def array_max_impl (lt : α → α → Bool) (arry : List α) : Except Err α :=
  match arry with
  | [] => .error .zeroSizeMaximum
  | v0 :: rest =>
      .ok (rest.foldl (fun mx v => if lt mx v then v else mx) v0)

/-- `array_argmin_impl` (generic path): raise on zero size; seed the
running minimum with the first element, then scan the whole array from
index 0 tracking the first strict improvement. -/
def array_argmin_impl (lt : α → α → Bool) (arry : List α) : Except Err ℕ :=
  match arry with
  | [] => .error .argminEmptySequence
  | v0 :: _ =>
      let r := arry.foldl
        (fun (st : α × ℕ × ℕ) v =>
          if lt v st.1 then (v, st.2.2, st.2.2 + 1)
          else (st.1, st.2.1, st.2.2 + 1))
        (v0, 0, 0)
      .ok r.2.1

/-- `np.min` at the exact-rational model of the numeric dtypes. -/
def np_min (a : List ℚ) : Except Err ℚ := array_min_impl less_than a

/-- `np.max` at the exact-rational model of the numeric dtypes. -/
def np_max (a : List ℚ) : Except Err ℚ := array_max_impl less_than a

/-- `np.argmin` at the exact-rational model of the numeric dtypes. -/
def np_argmin (a : List ℚ) : Except Err ℕ := array_argmin_impl less_than a

/-- `np.min` on a float64 array (IEEE `<`, NaN-free in every verified
call site). -/
def np_min_r (a : List RVal) : Except Err RVal := array_min_impl rlt a

/-- `np.max` on a float64 array. -/
def np_max_r (a : List RVal) : Except Err RVal := array_max_impl rlt a

/-! ## `np.partition` -/

/-- `np.unique` on a 1-D integer array: sorted unique values. -/
def unique_ints (l : List ℤ) : List ℤ :=
  (List.insertionSort (· ≤ ·) l).dedup

/-- `valid_kths(a, kth)`: raise if any `|kth|` is at least `a.shape[-1]`,
normalize negatives by adding `a.shape[-1]`, then sort and deduplicate.
(The 1-D/scalar shape check on `kth` is a static-shape matter; a scalar
`kth` is modelled as a one-element list.) -/
def valid_kths (a : List RVal) (kth : List ℤ) : Except Err (List ℤ) :=
  if kth.any (fun v => decide ((a.length : ℤ) ≤ |v|)) then .error .kthOutOfBounds
  else
    .ok (unique_ints (kth.map (fun v => if v < 0 then v + a.length else v)))

/-- `np_partition_impl_inner` for a 1-D array: run `_select_w_nan` on a
disposable copy for each requested `kth`, narrowing `low` to the
previous `kth` each time; the result is written to a fresh output
array. -/
def np_partition_impl_inner (a : List RVal) (kth_array : List ℤ) : List RVal :=
  (kth_array.foldl
    (fun (st : List RVal × ℕ) kth =>
      (_select_arr _partition_w_nan st.1 kth.toNat st.2 (a.length - 1), kth.toNat))
    (a, 0)).1

/-- `np.partition(a, kth)` (1-D): a zero-size input returns a fresh copy
immediately — before `valid_kths` runs, so an out-of-range `kth` is not
rejected; otherwise `kth` is validated and the partitioned copy
returned.  The input list is never part of the output state passing:
the kernel works on copies throughout. -/
def np_partition (a : List RVal) (kth : List ℤ) : Except Err (List RVal) :=
  if a.length = 0 then .ok a
  else
    match valid_kths a kth with
    | .error e => .error e
    | .ok ks => .ok (np_partition_impl_inner a ks)

/-! ## Window generators -/

/-- `window_generator(func)`'s `window_impl`: the length-0 and length-1
special cases are taken before `func` — the closed-form trigonometric
formula, which divides by `M - 1` — is ever evaluated.  Exactly as in
the source, the formula is a parameter. -/
def window_impl (func : ℤ → List ℚ) (M : ℤ) : List ℚ :=
  if M < 1 then []
  else if M = 1 then [1]
  else func M

/-- `np_kaiser_impl`: same special cases, then the Kaiser coefficients
through the zeroth-order modified Bessel function `_i0n` (a real-valued
Chebyshev-series evaluation, kept as a parameter of the model the same
way `window_generator` keeps its formula parameter). -/
def np_kaiser_impl (i0nFunc : List ℚ → ℚ → ℚ → List ℚ) (M : ℤ) (beta : ℚ) :
    List ℚ :=
  if M < 1 then []
  else if M = 1 then [1]
  else
    let n : List ℚ := (List.range M.toNat).map (fun t => (t : ℚ))
    let alpha : ℚ := ((M : ℚ) - 1) / 2
    i0nFunc n alpha beta

/-! ## Claim theorems: C2, C9, C10 -/

/-- C2, counterexample.  The claim says zero-size `median` raises a
`ValueError` before any selection runs; in fact `np.median` has no
zero-size check at all: it reaches `_select_two` with
`k = -1, low = 0, high = -1` and dies on that loop's `assert high > low`
with an `AssertionError` (after having allocated the flattened copy). -/
theorem np_median_empty_assertion_not_valueError :
    np_median ([] : List ℚ) = Except.error Err.assertionFailed ∧
    Err.isValueError Err.assertionFailed = false := by
  constructor
  · rfl
  · rfl

/-- C2 (amended): on a zero-size array, `min`, `max` and `argmin` each
raise their `ValueError` before any reduction runs; `median` instead
reaches the selection machinery and fails the `assert high > low` of
`_select_two` with an `AssertionError`. -/
theorem zero_size_reduction_errors (a : List ℚ) (h : a.length = 0) :
    np_min a = Except.error Err.zeroSizeMinimum ∧
    np_max a = Except.error Err.zeroSizeMaximum ∧
    np_argmin a = Except.error Err.argminEmptySequence ∧
    np_median a = Except.error Err.assertionFailed ∧
    (Err.zeroSizeMinimum.isValueError = true ∧
      Err.zeroSizeMaximum.isValueError = true ∧
      Err.argminEmptySequence.isValueError = true ∧
      Err.assertionFailed.isValueError = false) := by
  rw [List.length_eq_zero] at h
  subst h
  refine ⟨rfl, rfl, rfl, rfl, rfl, rfl, rfl, rfl⟩

theorem zero_size_reduction_errors_witness :
    ([] : List ℚ).length = 0 ∧
    np_min ([] : List ℚ) = Except.error Err.zeroSizeMinimum := by
  exact ⟨rfl, (zero_size_reduction_errors ([] : List ℚ) rfl).1⟩

/-- C9: every window generator (the shared `window_impl` of
bartlett/blackman/hamming/hanning, and the Kaiser window) returns an
empty array for a requested length of 0 and the single unit coefficient
for a requested length of 1, by the explicit special case; for any
length at most 1 the result does not depend on the trigonometric /
Bessel formula, which is therefore never evaluated. -/
theorem window_special_cases
    (f g : ℤ → List ℚ) (F G : List ℚ → ℚ → ℚ → List ℚ)
    (beta gamma : ℚ) (M : ℤ) (hM : M ≤ 1) :
    window_impl f 0 = [] ∧
    window_impl f 1 = [1] ∧
    np_kaiser_impl F 0 beta = [] ∧
    np_kaiser_impl F 1 beta = [1] ∧
    window_impl f M = window_impl g M ∧
    np_kaiser_impl F M beta = np_kaiser_impl G M gamma := by
  refine ⟨rfl, rfl, rfl, rfl, ?_, ?_⟩
  · unfold window_impl
    rcases lt_or_eq_of_le hM with h | h
    · rw [if_pos (by omega), if_pos (by omega)]
    · subst h
      rfl
  · unfold np_kaiser_impl
    rcases lt_or_eq_of_le hM with h | h
    · rw [if_pos (by omega), if_pos (by omega)]
    · subst h
      rfl

theorem window_special_cases_witness :
    (0 : ℤ) ≤ 1 ∧ window_impl (fun _ => [37]) 0 = [] := by
  exact ⟨by decide,
    (window_special_cases (fun _ => [37]) (fun _ => [42])
      (fun _ _ _ => [37]) (fun _ _ _ => [42]) 5 7 0 (by decide)).1⟩

/-- C10: a zero-size input to `np.partition` returns a fresh copy of the
input immediately, for every `kth` — including values an in-bounds check
would reject (`valid_kths` is never consulted) — and raises nothing.
For non-empty inputs the kernel likewise only ever threads copies
(`a[s].copy()`, a fresh `out`) through the state, never the caller's
list, which in this pure model is exactly the no-mutation guarantee. -/
theorem np_partition_zero_size (a : List RVal) (kth : List ℤ)
    (h : a.length = 0) :
    np_partition a kth = Except.ok a := by
  unfold np_partition
  rw [if_pos h]

theorem np_partition_zero_size_witness :
    ([] : List RVal).length = 0 ∧
    np_partition ([] : List RVal) [5, -7] = Except.ok [] := by
  exact ⟨rfl, np_partition_zero_size ([] : List RVal) [5, -7] rfl⟩


/-! ## Histogram (integer bin count, explicit range) -/

/-- `np.linspace(start, stop, num)` in exact arithmetic. -/
def np_linspace (start stop : ℚ) (num : ℕ) : List ℚ :=
  (List.range num).map (fun i => start + i * ((stop - start) / ((num : ℚ) - 1)))

/-- One element of the bucketing pass of `np.histogram` with integer bin
count and explicit range: `b = floor((v - bin_min) * bin_ratio)`, counted
if `0 <= b < bins`, with the one-off correction sending `v == bin_max`
to the last bin. -/
def histStep (lo hi : ℚ) (bins : ℤ) (hist : List ℕ) (v : ℚ) : List ℕ :=
  if 0 ≤ ⌊(v - lo) * ((bins : ℚ) / (hi - lo))⌋ ∧
      ⌊(v - lo) * ((bins : ℚ) / (hi - lo))⌋ < bins then
    aset hist (⌊(v - lo) * ((bins : ℚ) / (hi - lo))⌋).toNat
      (aget hist (⌊(v - lo) * ((bins : ℚ) / (hi - lo))⌋).toNat + 1)
  else if v = hi then
    aset hist (bins.toNat - 1) (aget hist (bins.toNat - 1) + 1)
  else hist

/-- `np.histogram(a, bins, range=(lo, hi))` with an integer bin count
and explicit range: validates `bins > 0` and `lo <= hi`, zero-fills the
counts, and runs the single bucketing pass only when `hi > lo` (a
degenerate `lo == hi` range leaves every count at zero). -/
def np_histogram (a : List ℚ) (bins : ℤ) (lo hi : ℚ) :
    Except Err (List ℕ × List ℚ) :=
  if bins ≤ 0 then .error .binsNotPositive
  else if ¬ (lo ≤ hi) then .error .rangeMaxLtMin
  else
    let hist0 : List ℕ := List.replicate bins.toNat 0
    let hist := if lo < hi then a.foldl (histStep lo hi bins) hist0 else hist0
    .ok (hist, np_linspace lo hi (bins.toNat + 1))

theorem sum_set_succ (l : List ℕ) (i : ℕ) (h : i < l.length) :
    (aset l i (aget l i + 1)).sum = l.sum + 1 := by
  induction l generalizing i with
  | nil => simp at h
  | cons x t ih =>
    cases i with
    | zero =>
      simp [aset, aget, List.getD]
      omega
    | succ i =>
      have h' : i < t.length := by simpa using h
      have := ih i h'
      simp only [aset, aget, List.getD] at this ⊢
      simp only [List.set, List.sum_cons, List.get?_cons_succ]
      omega

theorem length_histStep (lo hi : ℚ) (bins : ℤ) (hist : List ℕ) (v : ℚ) :
    (histStep lo hi bins hist v).length = hist.length := by
  unfold histStep
  split
  · simp [aset]
  · split
    · simp [aset]
    · rfl

theorem getD_set_succ_ge (l : List ℕ) (i : ℕ) (v : ℕ) (hv : l.getD i 0 ≤ v)
    (t : ℕ) : l.getD t 0 ≤ (l.set i v).getD t 0 := by
  rcases eq_or_ne i t with rfl | hne
  · rcases lt_or_le i l.length with h | h
    · simp only [List.getD]
      rw [List.get?_set_eq_of_lt _ h]
      simpa using hv
    · rw [List.set_eq_of_length_le h]
  · simp only [List.getD]
    rw [List.get?_set_ne _ _ hne]

/-- Each array element adds exactly one count when it lies in
`[lo, hi]`, and none otherwise; moreover the last-bin count never
drops, and grows by one on `v = hi`. -/
theorem sum_histStep (lo hi : ℚ) (bins : ℤ) (hb : 0 < bins) (hlh : lo < hi)
    (hist : List ℕ) (hlen : hist.length = bins.toNat) (v : ℚ) :
    (histStep lo hi bins hist v).sum
        = hist.sum + (if lo ≤ v ∧ v ≤ hi then 1 else 0) ∧
    aget hist (bins.toNat - 1) + (if v = hi then 1 else 0)
        ≤ aget (histStep lo hi bins hist v) (bins.toNat - 1) := by
  unfold histStep
  have hsub : (0 : ℚ) < hi - lo := by linarith
  have hratio : (0 : ℚ) < (bins : ℚ) / (hi - lo) := by
    apply div_pos
    · exact_mod_cast hb
    · exact hsub
  have key : (hi - lo) * ((bins : ℚ) / (hi - lo)) = (bins : ℚ) := by
    field_simp
  rcases lt_trichotomy v hi with hv | hv | hv
  · rcases le_or_lt lo v with hv2 | hv2
    · -- in [lo, hi): bucketed by the floor
      have hnum : (0 : ℚ) ≤ (v - lo) * ((bins : ℚ) / (hi - lo)) :=
        mul_nonneg (by linarith) (le_of_lt hratio)
      have hlt : (v - lo) * ((bins : ℚ) / (hi - lo)) < (bins : ℚ) := by
        calc (v - lo) * ((bins : ℚ) / (hi - lo))
            < (hi - lo) * ((bins : ℚ) / (hi - lo)) :=
              mul_lt_mul_of_pos_right (by linarith) hratio
          _ = (bins : ℚ) := key
      have h0 : 0 ≤ ⌊(v - lo) * ((bins : ℚ) / (hi - lo))⌋ := Int.floor_nonneg.mpr hnum
      have h1 : ⌊(v - lo) * ((bins : ℚ) / (hi - lo))⌋ < bins := Int.floor_lt.mpr hlt
      rw [if_pos ⟨h0, h1⟩]
      have hidx : (⌊(v - lo) * ((bins : ℚ) / (hi - lo))⌋).toNat < hist.length := by
        rw [hlen]; omega
      refine ⟨by rw [sum_set_succ _ _ hidx, if_pos ⟨hv2, le_of_lt hv⟩], ?_⟩
      rw [if_neg (by intro h; subst h; exact lt_irrefl _ hv)]
      simp only [aset, aget, Nat.add_zero]
      exact getD_set_succ_ge _ _ _ (Nat.le_succ _) _
    · -- below lo: dropped
      have hneg : (v - lo) * ((bins : ℚ) / (hi - lo)) < 0 :=
        mul_neg_of_neg_of_pos (by linarith) hratio
      have hbneg : ⌊(v - lo) * ((bins : ℚ) / (hi - lo))⌋ < 0 := by
        apply Int.floor_lt.mpr
        simpa using hneg
      rw [if_neg (by omega), if_neg (by intro h; subst h; linarith)]
      refine ⟨by rw [if_neg (by intro h; exact absurd h.1 (by linarith))]; omega, ?_⟩
      rw [if_neg (by intro h; subst h; linarith)]
      simp
  · -- v = hi exactly: the one-off correction sends it to the last bin
    subst hv
    have hfl : ⌊(v - lo) * ((bins : ℚ) / (v - lo))⌋ = bins := by
      rw [key, Int.floor_intCast]
    rw [hfl]
    rw [if_neg (by omega), if_pos rfl]
    have hidx : bins.toNat - 1 < hist.length := by rw [hlen]; omega
    refine ⟨by rw [sum_set_succ _ _ hidx, if_pos ⟨le_of_lt hlh, le_refl _⟩], ?_⟩
    rw [if_pos rfl]
    simp only [aset, aget, List.getD]
    rw [List.get?_set_eq_of_lt _ hidx]
    simp
  · -- above hi: dropped
    have hgt : (bins : ℚ) ≤ (v - lo) * ((bins : ℚ) / (hi - lo)) := by
      calc (bins : ℚ) = (hi - lo) * ((bins : ℚ) / (hi - lo)) := key.symm
        _ ≤ (v - lo) * ((bins : ℚ) / (hi - lo)) :=
            mul_le_mul_of_nonneg_right (by linarith) (le_of_lt hratio)
    have hge : bins ≤ ⌊(v - lo) * ((bins : ℚ) / (hi - lo))⌋ := by
      apply Int.le_floor.mpr
      simpa using hgt
    rw [if_neg (by omega), if_neg (by intro h; subst h; linarith)]
    refine ⟨by rw [if_neg (by intro h; exact absurd h.2 (by linarith))]; omega, ?_⟩
    rw [if_neg (by intro h; subst h; linarith)]
    simp

/-- The bucketing fold over a whole array: total count bookkeeping. -/
theorem hist_fold_spec (lo hi : ℚ) (bins : ℤ) (hb : 0 < bins) (hlh : lo < hi) :
    ∀ (a : List ℚ) (hist : List ℕ), hist.length = bins.toNat →
      (a.foldl (histStep lo hi bins) hist).sum
          = hist.sum + a.countP (fun v => decide (lo ≤ v) && decide (v ≤ hi)) ∧
      aget hist (bins.toNat - 1) + a.countP (fun v => decide (v = hi))
          ≤ aget (a.foldl (histStep lo hi bins) hist) (bins.toNat - 1) ∧
      (a.foldl (histStep lo hi bins) hist).length = bins.toNat := by
  intro a
  induction a with
  | nil => intro hist hlen; exact ⟨by simp, by simp, hlen⟩
  | cons v t ih =>
    intro hist hlen
    have hstep := sum_histStep lo hi bins hb hlh hist hlen v
    have hlen' : (histStep lo hi bins hist v).length = bins.toNat := by
      rw [length_histStep]; exact hlen
    obtain ⟨ih1, ih2, ih3⟩ := ih (histStep lo hi bins hist v) hlen'
    refine ⟨?_, ?_, by simpa using ih3⟩
    · simp only [List.foldl_cons, List.countP_cons]
      rw [ih1, hstep.1]
      by_cases hc : lo ≤ v ∧ v ≤ hi
      · rw [if_pos hc]
        simp [hc.1, hc.2]
        omega
      · rw [if_neg hc]
        rcases not_and_or.mp hc with h | h
        · simp [h]
        · simp [h]
    · simp only [List.foldl_cons, List.countP_cons]
      calc aget hist (bins.toNat - 1)
            + (t.countP (fun v => decide (v = hi))
                + if (fun v => decide (v = hi)) v = true then 1 else 0)
          = (aget hist (bins.toNat - 1) + (if v = hi then 1 else 0))
            + t.countP (fun v => decide (v = hi)) := by
            simp only [decide_eq_true_eq]
            omega
        _ ≤ aget (histStep lo hi bins hist v) (bins.toNat - 1)
            + t.countP (fun v => decide (v = hi)) := by
            exact Nat.add_le_add_right hstep.2 _
        _ ≤ _ := ih2

/-- C6, counterexample.  With the degenerate (but claimed-admissible)
range `lo = hi = 5` and `a = [5]`, the bucketing pass never runs: the
count is 0 although the single element lies inside `[5, 5]`, so
`sum(counts) + |values outside [lo, hi]| = 0 ≠ 1 = len(a)`. -/
theorem np_histogram_degenerate_range :
    np_histogram [(5 : ℚ)] 1 5 5 = Except.ok ([0], [5, 5]) ∧
    ¬ (([0] : List ℕ).sum
        + ([(5 : ℚ)].countP (fun v => decide (v < 5) || decide (5 < v)))
        = [(5 : ℚ)].length) := by
  constructor
  · simp [np_histogram, np_linspace, List.range_succ]
  · decide

/-- C6 (amended): for a positive bin count and a range with `lo < hi`
(strictly — a degenerate `lo = hi` range drops in-range values),
the counts sum plus the number of elements outside `[lo, hi]` equals the
array length, and the elements exactly equal to `hi` are counted in the
last bin. -/
theorem np_histogram_sum (a : List ℚ) (bins : ℤ) (lo hi : ℚ)
    (hb : 0 < bins) (hlh : lo < hi) :
    ∃ hist edges, np_histogram a bins lo hi = Except.ok (hist, edges) ∧
      hist.sum + a.countP (fun v => decide (v < lo) || decide (hi < v))
        = a.length ∧
      a.countP (fun v => decide (v = hi)) ≤ aget hist (bins.toNat - 1) := by
  obtain ⟨h1, h2, _⟩ := hist_fold_spec lo hi bins hb hlh a
    (List.replicate bins.toNat 0) (by simp)
  refine ⟨a.foldl (histStep lo hi bins) (List.replicate bins.toNat 0),
    np_linspace lo hi (bins.toNat + 1), ?_, ?_, ?_⟩
  · unfold np_histogram
    rw [if_neg (by omega), if_neg (by intro h; exact h (le_of_lt hlh))]
    simp only [if_pos hlh]
  · rw [h1]
    have hz : (List.replicate bins.toNat (0 : ℕ)).sum = 0 := by simp
    rw [hz, Nat.zero_add]
    have hsplit : ∀ l : List ℚ,
        l.countP (fun v => decide (lo ≤ v) && decide (v ≤ hi))
          + l.countP (fun v => decide (v < lo) || decide (hi < v)) = l.length := by
      intro l
      induction l with
      | nil => simp
      | cons x t iht =>
        simp only [List.countP_cons, List.length_cons]
        rcases le_or_lt lo x with hx | hx
        · rcases le_or_lt x hi with hx2 | hx2
          · simp [hx, hx2, not_lt.mpr hx, not_lt.mpr hx2]
            omega
          · simp [hx, hx2, not_le.mpr hx2, not_lt.mpr hx]
            omega
        · simp [hx, not_le.mpr hx]
          omega
    exact hsplit a
  · refine le_trans ?_ h2
    have : aget (List.replicate bins.toNat (0 : ℕ)) (bins.toNat - 1) = 0 := by
      simp [aget]
    omega

theorem np_histogram_sum_witness :
    (0 : ℤ) < 3 ∧ (0 : ℚ) < 3 ∧
    (∃ hist edges,
      np_histogram [(0 : ℚ), 1, 1, 2] 3 0 3 = Except.ok (hist, edges) ∧
      hist.sum
          + ([(0 : ℚ), 1, 1, 2].countP
              (fun v => decide (v < 0) || decide ((3 : ℚ) < v)))
        = [(0 : ℚ), 1, 1, 2].length ∧
      [(0 : ℚ), 1, 1, 2].countP (fun v => decide (v = 3))
        ≤ aget hist ((3 : ℤ).toNat - 1)) :=
  ⟨by decide, by decide,
    np_histogram_sum [(0 : ℚ), 1, 1, 2] 3 0 3 (by decide) (by decide)⟩

/-! ## Covariance (`np.cov`)

For a single 1-D input `m` with no second input, default `rowvar` and an
integral (or defaulted) `ddof`, both lowering paths prepare the same
stacked matrix `X = atleast_2d(m)` (the argument transposition
`rowvar, ddof, dtype` in the single-variable path is harmless here:
with `y=None` the `dtype` slot is unused by `_prepare_cov_input_inner`
and an integral `ddof` selects the no-op ddof handler).  Real dtype:
`conj` is the identity. -/

/-- `row_wise_average`: per-row mean, dividing by the column count. -/
def row_wise_average (X : List (List ℚ)) : List ℚ :=
  X.map (fun row => row.sum / ((X.headD []).length : ℚ))

/-- `np_cov_impl_inner(X, bias, ddof)`: resolve the degrees of freedom
(`ddof=None` gives 0 under `bias` else 1), floor the normalization
factor at 0, de-mean each row, and scale the Gram matrix `X·Xᵀ` by
`1/fact`. -/
def np_cov_impl_inner (X : List (List ℚ)) (bias : Bool) (ddof : Option ℤ) :
    List (List ℚ) :=
  let ddofv : ℤ := match ddof with
    | none => if bias then 0 else 1
    | some d => d
  let fact : ℚ := max (((X.headD []).length : ℚ) - (ddofv : ℚ)) 0
  let means := row_wise_average X
  let Xc := List.zipWith (fun row mu => row.map (fun x => x - mu)) X means
  let c := Xc.map (fun ri => Xc.map (fun rj => (List.zipWith (· * ·) ri rj).sum))
  c.map (fun row => row.map (fun x => x * (1 / fact)))

/-- The matrix-result path `np_cov_impl` specialized to a 1-D `m` (so
`X = atleast_2d(m)` is the single row `m`, `rowvar` leaves it alone):
a zero-size input short-circuits to a 1×1 NaN matrix (`none`). -/
def np_cov_1d (m : List ℚ) (bias : Bool) (ddof : Option ℤ) :
    List (List (Option ℚ)) :=
  if m.length = 0 then [[none]]
  else (np_cov_impl_inner [m] bias ddof).map (fun row => row.map some)

/-- The scalar-result path `np_cov_impl_single_variable` on the same
input: `variance = np_cov_impl_inner(X, bias, ddof).flat[0]` (NaN on a
zero-size input), returned as a scalar. -/
def np_cov_single (m : List ℚ) (bias : Bool) (ddof : Option ℤ) : Option ℚ :=
  if m.length = 0 then none
  else some (((np_cov_impl_inner [m] bias ddof).headD []).headD 0)

theorem zipWith_mul_self (l : List ℚ) :
    List.zipWith (· * ·) l l = l.map (fun x => x * x) := by
  induction l with
  | nil => rfl
  | cons x t ih => simp [ih]

/-- C8: the scalar-result path of `np.cov` on a single 1-D array agrees
with the `[0,0]` entry of the matrix-result path (including the
zero-size NaN case), and for non-empty input both equal the de-meaned
sum of squares of `m` scaled by `1 / max(columns - dof, 0)` with
`dof = 0` when `bias` is requested and `1` otherwise (or the explicit
value). -/
theorem np_cov_single_eq_matrix00 (m : List ℚ) (bias : Bool) (ddof : Option ℤ) :
    np_cov_single m bias ddof = ((np_cov_1d m bias ddof).headD []).headD none ∧
    (m ≠ [] → np_cov_single m bias ddof
        = some ((m.map (fun x => (x - m.sum / (m.length : ℚ))
              * (x - m.sum / (m.length : ℚ)))).sum
            * (1 / max ((m.length : ℚ) - ((match ddof with
                  | none => if bias then (0 : ℤ) else 1
                  | some d => d) : ℚ)) 0))) := by
  constructor
  · rcases eq_or_ne m.length 0 with h | h
    · simp [np_cov_single, np_cov_1d, h]
    · simp only [np_cov_single, np_cov_1d, if_neg h]
      unfold np_cov_impl_inner
      simp [row_wise_average]
  · intro hm
    have h : m.length ≠ 0 := by simpa using hm
    simp only [np_cov_single, if_neg h]
    unfold np_cov_impl_inner
    simp only [row_wise_average, List.map_cons, List.map_nil, List.headD_cons,
      List.zipWith_cons_cons, List.zipWith_nil_right]
    rw [zipWith_mul_self, List.map_map]
    rcases ddof with _ | d
    · cases bias <;> simp [Function.comp_def]
    · simp [Function.comp_def]

theorem np_cov_single_eq_matrix00_witness :
    [(1 : ℚ), 2] ≠ [] ∧
    np_cov_single [(1 : ℚ), 2] false none
      = (([(1 : ℚ), 2].map (fun x => (x - [(1 : ℚ), 2].sum / (([(1 : ℚ), 2].length : ℕ) : ℚ))
            * (x - [(1 : ℚ), 2].sum / (([(1 : ℚ), 2].length : ℕ) : ℚ)))).sum
          * (1 / max ((([(1 : ℚ), 2].length : ℕ) : ℚ) - ((1 : ℤ) : ℚ)) 0)) := by
  refine ⟨by simp, ?_⟩
  have h := (np_cov_single_eq_matrix00 [(1 : ℚ), 2] false none).2 (by simp)
  simpa using h

/-! ## Axis-restricted `array.sum`

`array_sum_axis` lowers two distinct specializations:

* a literal-axis specialization (`types.IntegerLiteral`): the literal is
  normalized (negatives get the rank added) and bound-checked at
  specialization time (`ValueError` "axis entry is out of bounds" for a
  value outside `[0, ndim]`), and the generated body works for **any**
  valid axis — not just 0..3;
* a runtime-axis specialization (`types.intp`): the body rejects any
  axis outside 0..3 (without normalizing negatives!), then rejects
  `axis >= ndim`.

The N-D array is a shape plus flat C-order data; the slice-by-slice
accumulation of the source is the fold below. -/

/-- An N-D array: shape plus flat C-order data. -/
structure NdArr where
  shape : List ℕ
  data : List ℚ
  deriving DecidableEq, Repr

/-- Flat C-order index of a multi-index. -/
def flatIdx : List ℕ → List ℕ → ℕ
  | _ :: ss, m :: ms => m * ss.prod + flatIdx ss ms
  | _, _ => 0

/-- All multi-indices of a shape, in C order. -/
def allIdx : List ℕ → List (List ℕ)
  | [] => [[]]
  | s :: ss => (List.range s).flatMap (fun i => (allIdx ss).map (fun ms => i :: ms))

/-- The slice `arr[..., i, ...]` (index `i` in the `axis` slot, full
range elsewhere), flattened in C order: the value `_gen_index_tuple`
indexing produces. -/
def axisSlice (arr : NdArr) (axis i : ℕ) : List ℚ :=
  (allIdx (arr.shape.eraseIdx axis)).map
    (fun ms => aget arr.data (flatIdx arr.shape (ms.insertIdx axis i)))

/-- `array_sum_impl_axis`: the shared body.  The runtime-axis variant
(`isConst = false`) first rejects axis values outside 0..3; both
variants then reject `axis >= ndim`; the surviving axis accumulates the
slices into a zero-filled output of the axis-removed shape. -/
def array_sum_impl_axis (isConst : Bool) (arr : NdArr) (axis : ℤ) :
    Except Err NdArr :=
  let ndim := arr.shape.length
  if isConst = false ∧ (axis < 0 ∨ 3 < axis) then .error .axisNotInRange03
  else if (ndim : ℤ) ≤ axis then .error .axisOutOfBounds
  else
    let ax := axis.toNat
    let ashape := arr.shape.eraseIdx ax
    let axis_len := arr.shape.getD ax 0
    let result := (List.range axis_len).foldl
      (fun acc i => List.zipWith (· + ·) acc (axisSlice arr ax i))
      (List.replicate ashape.prod 0)
    .ok ⟨ashape, result⟩

/-- The literal-axis specialization: normalize a negative literal by
adding the rank, reject a literal outside `[0, ndim]` at specialization
time, then run the shared body with `is_axis_const` set. -/
def array_sum_axis_const (arr : NdArr) (axisLit : ℤ) : Except Err NdArr :=
  let ndim := arr.shape.length
  let a := if axisLit < 0 then axisLit + ndim else axisLit
  if a < 0 ∨ (ndim : ℤ) < a then .error .axisLiteralOutOfBounds
  else array_sum_impl_axis true arr a

/-- The runtime-axis specialization: the shared body with
`is_axis_const` clear (no normalization of negative axes happens
anywhere on this path). -/
def array_sum_axis_runtime (arr : NdArr) (axis : ℤ) : Except Err NdArr :=
  array_sum_impl_axis false arr axis

/-- C7, counterexample.  The claim says every negative axis is
normalized by adding the rank before use; on the runtime-axis path
`axis = -1` for a 2×2 array is rejected outright (`ValueError`, "outside
the range 0 to 3") instead of summing along the normalized axis 1 —
which is exactly what the literal path does produce. -/
theorem array_sum_axis_runtime_negative_unnormalized :
    array_sum_axis_runtime ⟨[2, 2], [1, 2, 3, 4]⟩ (-1)
        = Except.error Err.axisNotInRange03 ∧
    array_sum_axis_const ⟨[2, 2], [1, 2, 3, 4]⟩ (-1)
        = Except.ok ⟨[2], [3, 7]⟩ := by
  constructor
  · decide
  · show array_sum_impl_axis true ⟨[2, 2], [1, 2, 3, 4]⟩ 1 = Except.ok ⟨[2], [3, 7]⟩
    simp [array_sum_impl_axis, axisSlice, allIdx, flatIdx, aget, List.range_succ]
    norm_num

/-- C7 (amended): the runtime-axis path supports only axis values 0..3
and performs no normalization — any negative axis raises, as does an
in-0..3 axis at or above the rank.  The literal-axis path normalizes a
negative literal by adding the rank (a literal in `[-ndim, 0)` behaves
exactly as its normalized value), rejects a normalized value outside
`[0, ndim)`, and accepts **every** normalized axis below the rank, even
above 3. -/
theorem array_sum_axis_spec (arr : NdArr) (axis lit : ℤ) :
    ((axis < 0 ∨ 3 < axis) →
      array_sum_axis_runtime arr axis = Except.error Err.axisNotInRange03) ∧
    (0 ≤ axis → axis ≤ 3 → (arr.shape.length : ℤ) ≤ axis →
      array_sum_axis_runtime arr axis = Except.error Err.axisOutOfBounds) ∧
    (-(arr.shape.length : ℤ) ≤ lit → lit < 0 →
      array_sum_axis_const arr lit
        = array_sum_axis_const arr (lit + arr.shape.length)) ∧
    (0 ≤ lit → lit < (arr.shape.length : ℤ) →
      ∃ r, array_sum_axis_const arr lit = Except.ok r) ∧
    (((if lit < 0 then lit + arr.shape.length else lit) < 0 ∨
        (arr.shape.length : ℤ) ≤ (if lit < 0 then lit + arr.shape.length else lit)) →
      ∀ r, array_sum_axis_const arr lit ≠ Except.ok r) := by
  refine ⟨?_, ?_, ?_, ?_, ?_⟩
  · intro h
    unfold array_sum_axis_runtime array_sum_impl_axis
    rw [if_pos ⟨rfl, h⟩]
  · intro h0 _ hn
    unfold array_sum_axis_runtime array_sum_impl_axis
    rw [if_neg (by intro hc; rcases hc.2 with h | h <;> omega), if_pos hn]
  · intro hlo hneg
    simp only [array_sum_axis_const, if_pos hneg]
    rw [if_neg (by omega)]
    simp only [if_neg (show ¬ (lit + (arr.shape.length : ℤ) < 0) from by omega)]
    rw [if_neg (by omega)]
  · intro h0 hlt
    simp only [array_sum_axis_const, if_neg (not_lt.mpr h0)]
    rw [if_neg (by omega)]
    unfold array_sum_impl_axis
    rw [if_neg (by simp), if_neg (by omega)]
    exact ⟨_, rfl⟩
  · intro hbad r
    simp only [array_sum_axis_const]
    rcases lt_or_le lit 0 with h | h
    · simp only [if_pos h] at hbad ⊢
      rcases hbad with hb | hb
      · rw [if_pos (Or.inl hb)]
        intro hc
        exact Except.noConfusion hc
      · rcases lt_or_eq_of_le hb with hb2 | hb2
        · rw [if_pos (Or.inr hb2)]
          intro hc
          exact Except.noConfusion hc
        · rw [if_neg (by omega)]
          unfold array_sum_impl_axis
          rw [if_neg (by simp), if_pos (by omega)]
          intro hc
          exact Except.noConfusion hc
    · simp only [if_neg (not_lt.mpr h)] at hbad ⊢
      rcases hbad with hb | hb
      · omega
      · rcases lt_or_eq_of_le hb with hb2 | hb2
        · rw [if_pos (Or.inr hb2)]
          intro hc
          exact Except.noConfusion hc
        · rw [if_neg (by omega)]
          unfold array_sum_impl_axis
          rw [if_neg (by simp), if_pos (by omega)]
          intro hc
          exact Except.noConfusion hc

theorem array_sum_axis_spec_witness :
    ((5 : ℤ) < 0 ∨ (3 : ℤ) < 5) ∧
    array_sum_axis_runtime ⟨[2, 2], [1, 2, 3, 4]⟩ 5
      = Except.error Err.axisNotInRange03 ∧
    ((0 : ℤ) ≤ 4 ∧ (4 : ℤ) < ([2, 1, 1, 1, 2] : List ℕ).length ∧
      ∃ r, array_sum_axis_const ⟨[2, 1, 1, 1, 2], [1, 2, 3, 4]⟩ 4
        = Except.ok r) := by
  refine ⟨by decide, (array_sum_axis_spec ⟨[2, 2], [1, 2, 3, 4]⟩ 5 0).1 (by decide),
    by decide, by decide, (array_sum_axis_spec ⟨[2, 1, 1, 1, 2], [1, 2, 3, 4]⟩ 0 4).2.2.2.1
      (by decide) (by decide)⟩

/-! ## Percentile (ranks 0 and 100, infinity heuristics)

`np.percentile(a, q)` for a scalar rank: validate the rank, build the
NaN mask of a temporary copy, decide via `_can_collect_percentiles`
whether percentiles can be collected at all (any NaN with
`skip_nan=False` means the output is all-NaN), and collect through
`_collect_percentiles_inner`, which special-cases ranks 0 and 100 to
`np.min`/`np.max` plus NumPy's infinity heuristics and otherwise
linearly interpolates between the two bracketing order statistics via
`_select_two`. -/

/-- `a[~nan_mask]`. -/
def maskFilter (a : List RVal) (mask : List Bool) : List RVal :=
  (List.zip a mask).filterMap (fun p => if p.2 = true then none else some p.1)

/-- `check_valid(q, q_upper_bound)`: every rank must be in
`[0, q_upper_bound]` (a NaN rank is invalid; ranks are exact rationals
here, so the NaN short-circuit of the source cannot fire). -/
def check_valid (q : List ℚ) (bound : ℚ) : Bool :=
  q.all (fun v => decide (0 ≤ v) && decide (v ≤ bound))

/-- `_can_collect_percentiles(a, nan_mask, skip_nan)`. -/
def _can_collect_percentiles (a : List RVal) (nan_mask : List Bool)
    (skip_nan : Bool) : Bool :=
  match skip_nan with
  | true =>
      let a2 := maskFilter a nan_mask
      if a2.length = 0 then false
      else if a2.length = 1 then (aget a2 0).isfinite
      else true
  | false =>
      if nan_mask.any id then false
      else if a.length = 1 then (aget a 0).isfinite
      else true

/-- One entry of the `_collect_percentiles_inner` loop: rank 100 takes
`np.max` (NaN when non-finite values are present and the max is not
finite), rank 0 takes `np.min` refined by the infinity heuristics, any
other rank linearly interpolates between the order statistics bracketing
`rank = 1 + (n-1)*percentile/100` obtained by `_select_two`. -/
def _collect_percentile_value (a : List RVal) (percentile : ℚ) :
    Except Err RVal :=
  let n := a.length
  if percentile = 100 then
    match np_max_r a with
    | .error e => .error e
    | .ok val =>
        .ok (if ¬ a.all RVal.isfinite then
              (if ¬ val.isfinite = true then RVal.nan else val)
             else val)
  else if percentile = 0 then
    match np_min_r a with
    | .error e => .error e
    | .ok val =>
        .ok (if ¬ a.all RVal.isfinite then
              (let npos := a.countP (fun x => req x .pinf)
               let nneg := a.countP (fun x => req x .ninf)
               let nfin : ℤ := (n : ℤ) - ((nneg : ℤ) + (npos : ℤ))
               let val1 := if nfin = 0 then RVal.nan else val
               let val2 := if npos = 1 ∧ n = 2 then RVal.nan else val1
               let val3 := if 1 < nneg then RVal.nan else val2
               if nfin = 1 then
                 (if 1 < npos then (if nneg ≠ 1 then RVal.nan else val3) else val3)
               else val3)
             else val)
  else
    let rank : ℚ := 1 + ((n : ℚ) - 1) * (percentile / 100)
    let f : ℤ := ⌊rank⌋
    let m : ℚ := rank - f
    match _select_two rlt a (f - 1) 0 ((n : ℤ) - 1) with
    | .error e => .error e
    | .ok r => .ok (radd (rmul r.2.1 (.fin (1 - m))) (rmul r.2.2 (.fin m)))

/-- The output loop of `_collect_percentiles_inner` (`out[i] = val`). -/
def collectLoop (a : List RVal) : List ℚ → Except Err (List RVal)
  | [] => .ok []
  | p :: rest =>
      match _collect_percentile_value a p with
      | .error e => .error e
      | .ok v =>
          match collectLoop a rest with
          | .error e => .error e
          | .ok vs => .ok (v :: vs)

/-- `_collect_percentiles_inner(a, q)`: a single-element array feeds
every rank the same value; otherwise the per-rank loop runs. -/
def _collect_percentiles_inner (a : List RVal) (q : List ℚ) :
    Except Err (List RVal) :=
  if a.length = 1 then .ok (q.map (fun _ => aget a 0))
  else collectLoop a q

/-- `_collect_percentiles(a, q, check_q=percentile_is_valid, factor=1,
skip_nan=False)` — the `np.percentile` instantiation. -/
def _collect_percentiles (a : List RVal) (q : List ℚ) :
    Except Err (List RVal) :=
  if ¬ check_valid q 100 then .error .percentileOutOfRange
  else
    let nan_mask := a.map RVal.isnan
    if _can_collect_percentiles a nan_mask false then
      _collect_percentiles_inner (maskFilter a nan_mask) q
    else
      .ok (q.map (fun _ => RVal.nan))

/-- `np.percentile(a, q)` for a scalar rank (the `q` scalar overload
returns element 0 of the collected array). -/
def np_percentile (a : List RVal) (q : ℚ) : Except Err RVal :=
  match _collect_percentiles a [q] with
  | .error e => .error e
  | .ok out => .ok (aget out 0)

theorem maskFilter_of_no_nan {a : List RVal}
    (h : ∀ x ∈ a, x.isnan = false) :
    maskFilter a (a.map RVal.isnan) = a := by
  induction a with
  | nil => rfl
  | cons x t ih =>
    have hx : x.isnan = false := h x (List.mem_cons_self x t)
    have ht := ih (fun y hy => h y (List.mem_cons_of_mem x hy))
    simp only [maskFilter, List.map_cons, List.zip_cons_cons, List.filterMap_cons,
      hx] at ht ⊢
    simp [ht]

theorem nan_mask_no_nan {a : List RVal} (h : ∀ x ∈ a, x.isnan = false) :
    (a.map RVal.isnan).any id = false := by
  induction a with
  | nil => rfl
  | cons x t ih =>
    have hx : x.isnan = false := h x (List.mem_cons_self x t)
    simp only [List.map_cons, List.any_cons, hx, id, Bool.false_or]
    exact ih (fun y hy => h y (List.mem_cons_of_mem x hy))

/-- A non-NaN value is exactly one of: finite, `+inf`, `-inf`. -/
theorem count_partition_of_no_nan {a : List RVal}
    (h : ∀ x ∈ a, x.isnan = false) :
    a.countP (fun x => x.isfinite)
      + a.countP (fun x => req x .pinf)
      + a.countP (fun x => req x .ninf) = a.length := by
  induction a with
  | nil => rfl
  | cons x t ih =>
    have hx : x.isnan = false := h x (List.mem_cons_self x t)
    have ht := ih (fun y hy => h y (List.mem_cons_of_mem x hy))
    simp only [List.countP_cons, List.length_cons]
    rcases x with _ | _ | _ | q
    · simp [RVal.isnan] at hx
    · simp only [show RVal.isfinite RVal.ninf = false from rfl,
        show req RVal.ninf RVal.pinf = false from rfl,
        show req RVal.ninf RVal.ninf = true from rfl]
      simp
      omega
    · simp only [show RVal.isfinite RVal.pinf = false from rfl,
        show req RVal.pinf RVal.pinf = true from rfl,
        show req RVal.pinf RVal.ninf = false from rfl]
      simp
      omega
    · simp only [show RVal.isfinite (RVal.fin q) = true from rfl,
        show req (RVal.fin q) RVal.pinf = false from rfl,
        show req (RVal.fin q) RVal.ninf = false from rfl]
      simp
      omega

/-- With no NaN present and more than one element,
`_can_collect_percentiles` succeeds. -/
theorem can_collect_clean {a : List RVal} (hnan : ∀ x ∈ a, x.isnan = false)
    (h1 : a.length ≠ 1) :
    _can_collect_percentiles a (a.map RVal.isnan) false = true := by
  unfold _can_collect_percentiles
  rw [nan_mask_no_nan hnan]
  simp [h1]

/-- On a non-NaN singleton, `_can_collect_percentiles` is the
finiteness of the element. -/
theorem can_collect_one (x : RVal) (hx : x.isnan = false) :
    _can_collect_percentiles [x] ([x].map RVal.isnan) false = x.isfinite := by
  unfold _can_collect_percentiles
  rw [nan_mask_no_nan (by intro y hy; rw [List.mem_singleton.mp hy]; exact hx)]
  simp [aget]

/-- For a NaN-free array with at least two elements, the scalar
percentile is the per-rank value. -/
theorem np_percentile_eq_value (a : List RVal) (q : ℚ)
    (hq : check_valid [q] 100 = true)
    (hnan : ∀ x ∈ a, x.isnan = false) (h1 : a.length ≠ 1) :
    np_percentile a q = _collect_percentile_value a q := by
  unfold np_percentile _collect_percentiles
  rw [if_neg (show ¬ ¬ check_valid [q] 100 = true from by
    rw [hq]; exact fun h => h rfl)]
  rw [if_pos (can_collect_clean hnan h1)]
  rw [maskFilter_of_no_nan hnan]
  unfold _collect_percentiles_inner
  rw [if_neg h1]
  unfold collectLoop
  cases hv : _collect_percentile_value a q with
  | error e => rfl
  | ok v => simp [collectLoop, aget]

/-- On a non-NaN singleton the scalar percentile is the element when it
is finite, NaN otherwise (via the all-NaN fallback), for every valid
rank. -/
theorem np_percentile_one (x : RVal) (q : ℚ)
    (hq : check_valid [q] 100 = true) (hx : x.isnan = false) :
    np_percentile [x] q = Except.ok (if x.isfinite = true then x else RVal.nan) := by
  unfold np_percentile _collect_percentiles
  rw [if_neg (show ¬ ¬ check_valid [q] 100 = true from by
    rw [hq]; exact fun h => h rfl)]
  cases hfin : x.isfinite with
  | false =>
    rw [if_neg (by rw [can_collect_one x hx, hfin]; exact fun h => Bool.noConfusion h)]
    simp [aget]
  | true =>
    rw [if_pos (by rw [can_collect_one x hx, hfin])]
    rw [maskFilter_of_no_nan (by intro y hy; rw [List.mem_singleton.mp hy]; exact hx)]
    unfold _collect_percentiles_inner
    rw [if_pos rfl]
    simp [aget]

/-- Rank 0 on an all-finite array is `np.min`; rank 100 is `np.max`. -/
theorem value_all_finite (a : List RVal) (hne : a ≠ [])
    (hall : a.all RVal.isfinite = true) :
    _collect_percentile_value a 0 = np_min_r a ∧
    _collect_percentile_value a 100 = np_max_r a := by
  obtain ⟨v0, rest, rfl⟩ : ∃ v0 rest, a = v0 :: rest := by
    cases a with
    | nil => exact absurd rfl hne
    | cons v0 rest => exact ⟨v0, rest, rfl⟩
  constructor
  · unfold _collect_percentile_value
    rw [if_neg (show ¬ (0 : ℚ) = 100 from by norm_num), if_pos rfl]
    cases hv : np_min_r (v0 :: rest) with
    | error e => simp [np_min_r, array_min_impl] at hv
    | ok v => simp [hall]
  · unfold _collect_percentile_value
    rw [if_pos rfl]
    cases hv : np_max_r (v0 :: rest) with
    | error e => simp [np_max_r, array_max_impl] at hv
    | ok v => simp [hall]

/-- Rank 0 with non-finite values present: the infinity heuristics give
NaN under any of the four enumerated conditions. -/
theorem value0_heuristics (a : List RVal) (hne : a ≠ [])
    (hnan : ∀ x ∈ a, x.isnan = false)
    (hall : a.all RVal.isfinite = false)
    (hcond : a.countP (fun x => x.isfinite) = 0 ∨
      (a.countP (fun x => req x .pinf) = 1 ∧ a.length = 2) ∨
      1 < a.countP (fun x => req x .ninf) ∨
      (a.countP (fun x => x.isfinite) = 1 ∧
        1 < a.countP (fun x => req x .pinf) ∧
        a.countP (fun x => req x .ninf) ≠ 1)) :
    _collect_percentile_value a 0 = Except.ok RVal.nan := by
  have hcount := count_partition_of_no_nan hnan
  obtain ⟨v0, rest, rfl⟩ : ∃ v0 rest, a = v0 :: rest := by
    cases a with
    | nil => exact absurd rfl hne
    | cons v0 rest => exact ⟨v0, rest, rfl⟩
  unfold _collect_percentile_value
  rw [if_neg (show ¬ (0 : ℚ) = 100 from by norm_num), if_pos rfl]
  cases hv : np_min_r (v0 :: rest) with
  | error e => simp [np_min_r, array_min_impl] at hv
  | ok v =>
    dsimp only
    rw [if_pos (by rw [hall]; exact fun hcontra => Bool.noConfusion hcontra)]
    rcases hcond with h | h | h | h <;>
      split_ifs <;> first | rfl | (exfalso; omega)

/-- C3: for a non-empty all-finite array the 0th and 100th percentiles
are exactly `np.min` and `np.max` (no interpolation is performed), and
for a NaN-free array containing non-finite values the 0th percentile is
NaN under each of the enumerated count conditions (all non-finite;
exactly one `+inf` with `n = 2`; at least two `-inf`; exactly one finite
value with more than one `+inf` and not exactly one `-inf`). -/
theorem np_percentile_edges (a : List RVal) :
    (a ≠ [] → (∀ x ∈ a, x.isfinite = true) →
      np_percentile a 0 = np_min_r a ∧ np_percentile a 100 = np_max_r a) ∧
    ((∀ x ∈ a, x.isnan = false) → ¬ (∀ x ∈ a, x.isfinite = true) →
      (a.countP (fun x => x.isfinite) = 0 ∨
        (a.countP (fun x => req x .pinf) = 1 ∧ a.length = 2) ∨
        1 < a.countP (fun x => req x .ninf) ∨
        (a.countP (fun x => x.isfinite) = 1 ∧
          1 < a.countP (fun x => req x .pinf) ∧
          a.countP (fun x => req x .ninf) ≠ 1)) →
      np_percentile a 0 = Except.ok RVal.nan) := by
  have hcv0 : check_valid [0] 100 = true := by simp [check_valid]
  have hcv100 : check_valid [100] 100 = true := by
    simp [check_valid]
  constructor
  · intro hne hfin
    have hnan : ∀ x ∈ a, x.isnan = false := by
      intro x hx
      have := hfin x hx
      cases x <;> simp_all [RVal.isfinite, RVal.isnan]
    have hall : a.all RVal.isfinite = true := List.all_eq_true.mpr hfin
    by_cases h1 : a.length = 1
    · obtain ⟨x, rfl⟩ := List.length_eq_one.mp h1
      have hx : x.isfinite = true := hfin x (List.mem_cons_self x [])
      have hxn : x.isnan = false := hnan x (List.mem_cons_self x [])
      rw [np_percentile_one x 0 hcv0 hxn, np_percentile_one x 100 hcv100 hxn]
      rw [if_pos hx]
      constructor
      · simp [np_min_r, array_min_impl]
      · simp [np_max_r, array_max_impl]
    · rw [np_percentile_eq_value a 0 hcv0 hnan h1,
        np_percentile_eq_value a 100 hcv100 hnan h1]
      exact value_all_finite a hne hall
  · intro hnan hninf hcond
    have hne : a ≠ [] := by
      rintro rfl
      exact hninf (by intro x hx; cases hx)
    have hall : a.all RVal.isfinite = false := by
      cases h : a.all RVal.isfinite
      · rfl
      · exact absurd (fun x hx => List.all_eq_true.mp h x hx) hninf
    by_cases h1 : a.length = 1
    · obtain ⟨x, rfl⟩ := List.length_eq_one.mp h1
      have hxn : x.isnan = false := hnan x (List.mem_cons_self x [])
      have hx : x.isfinite = false := by
        cases h : x.isfinite
        · rfl
        · exfalso
          apply hninf
          intro y hy
          rw [List.mem_singleton.mp hy]
          exact h
      rw [np_percentile_one x 0 hcv0 hxn, if_neg (by rw [hx]; exact fun h => Bool.noConfusion h)]
    · rw [np_percentile_eq_value a 0 hcv0 hnan h1]
      exact value0_heuristics a hne hnan hall hcond

theorem np_percentile_edges_witness :
    ([RVal.fin 1, RVal.fin 3, RVal.fin 2] ≠ [] ∧
      np_percentile [RVal.fin 1, RVal.fin 3, RVal.fin 2] 0
        = np_min_r [RVal.fin 1, RVal.fin 3, RVal.fin 2]) ∧
    np_percentile [RVal.pinf, RVal.fin 2] 0 = Except.ok RVal.nan := by
  refine ⟨⟨by simp, ?_⟩, ?_⟩
  · exact ((np_percentile_edges [RVal.fin 1, RVal.fin 3, RVal.fin 2]).1
      (by simp) (by intro x hx; fin_cases hx <;> rfl)).1
  · exact (np_percentile_edges [RVal.pinf, RVal.fin 2]).2
      (by intro x hx; fin_cases hx <;> rfl)
      (by intro h; exact Bool.noConfusion (h RVal.pinf (List.mem_cons_self _ _)))
      (Or.inr (Or.inl (by constructor <;> rfl)))

/-! ## Searchsorted

`_searchsorted(func)` builds the binary insertion-point search from a
comparator: `less_than` for `side='left'`, `<=` for `side='right'`.
A NaN query is placed after the last non-NaN element, found by scanning
from the end. -/

/-- The backwards NaN scan: `for i in range(n, 0, -1): if not
isnan(a[i-1]): return i` then `return 0`. -/
def nanScan (a : List RVal) : ℕ → ℕ
  | 0 => 0
  | i+1 => if ¬ (aget a i).isnan = true then i + 1 else nanScan a i

/-- The bisection loop `while hi > lo` of `searchsorted_inner`, with
explicit fuel (`hi - lo` iterations always suffice). -/
def ssBisect (func : RVal → RVal → Bool) (a : List RVal) (v : RVal) :
    ℕ → ℕ → ℕ → ℕ
  | 0, lo, _ => lo
  | fuel+1, lo, hi =>
      if hi ≤ lo then lo
      else if func (aget a ((lo + hi) >>> 1)) v then
        ssBisect func a v fuel ((lo + hi) >>> 1 + 1) hi
      else ssBisect func a v fuel lo ((lo + hi) >>> 1)

/-- `searchsorted_inner(func)(a, v)`. -/
def searchsorted_inner (func : RVal → RVal → Bool) (a : List RVal)
    (v : RVal) : ℕ :=
  let n := a.length
  if v.isnan = true then nanScan a n
  else ssBisect func a v n 0 n

/-- `np.searchsorted(a, v, side='left')` (scalar query). -/
def _searchsorted_left (a : List RVal) (v : RVal) : ℕ :=
  searchsorted_inner rlt a v

/-- `np.searchsorted(a, v, side='right')` (scalar query). -/
def _searchsorted_right (a : List RVal) (v : RVal) : ℕ :=
  searchsorted_inner rle a v

theorem RVal.not_isnan_toX_ne_top {a : RVal} (ha : a.isnan = false) :
    a.toX ≠ ⊤ := by
  cases a <;> simp_all [RVal.toX, RVal.isnan]

/-- The source's NaN-aware comparator agrees everywhere with the
NaN-aware linear order on `RVal`. -/
theorem nan_aware_less_than_eq_decide (x y : RVal) :
    nan_aware_less_than x y = decide (x < y) := by
  unfold nan_aware_less_than
  cases hx : x.isnan with
  | true =>
    have : x = RVal.nan := by cases x <;> simp_all [RVal.isnan]
    subst this
    simp only [if_pos rfl]
    have : ¬ RVal.nan < y := by
      rw [RVal.lt_def]
      exact not_top_lt
    simp [this]
  | false =>
    rw [if_neg (by simp [hx])]
    cases hy : y.isnan with
    | true =>
      have : y = RVal.nan := by cases y <;> simp_all [RVal.isnan]
      subst this
      rw [if_pos rfl]
      have : x < RVal.nan := by
        rw [RVal.lt_def]
        exact lt_top_iff_ne_top.mpr (RVal.not_isnan_toX_ne_top hx)
      simp [this]
    | false =>
      rw [if_neg (by simp [hy])]
      rw [rlt_eq_decide_lt hy]


/-- Generic bisection invariant: if truth of `func (a[j]) v` is
prefix-closed on indices, the loop returns the boundary. -/
theorem ssBisect_spec (func : RVal → RVal → Bool) (a : List RVal) (v : RVal)
    (n : ℕ) (hn : n = a.length)
    (hpre : ∀ i j, i ≤ j → j < n → func (aget a j) v = true →
      func (aget a i) v = true) :
    ∀ fuel lo hi, hi ≤ n → lo ≤ hi → hi - lo ≤ fuel →
      (∀ i, i < lo → func (aget a i) v = true) →
      (∀ i, hi ≤ i → i < n → func (aget a i) v = false) →
      lo ≤ ssBisect func a v fuel lo hi ∧
      ssBisect func a v fuel lo hi ≤ hi ∧
      (∀ i, i < ssBisect func a v fuel lo hi → func (aget a i) v = true) ∧
      (∀ i, ssBisect func a v fuel lo hi ≤ i → i < n →
        func (aget a i) v = false) := by
  intro fuel
  induction fuel with
  | zero =>
    intro lo hi hhn hlh hfuel hlow hhigh
    have : hi = lo := by omega
    subst this
    exact ⟨le_refl _, le_refl _, hlow, hhigh⟩
  | succ fuel ih =>
    intro lo hi hhn hlh hfuel hlow hhigh
    unfold ssBisect
    by_cases hstop : hi ≤ lo
    · rw [if_pos hstop]
      have : hi = lo := by omega
      subst this
      exact ⟨le_refl _, le_refl _, hlow, hhigh⟩
    · rw [if_neg hstop]
      have hmidlo : lo ≤ (lo + hi) >>> 1 := by
        simp only [Nat.shiftRight_one]
        omega
      have hmidhi : (lo + hi) >>> 1 < hi := by
        simp only [Nat.shiftRight_one]
        omega
      cases hf : func (aget a ((lo + hi) >>> 1)) v with
      | true =>
        rw [if_pos rfl]
        have hlow' : ∀ i, i < (lo + hi) >>> 1 + 1 → func (aget a i) v = true := by
          intro i hi2
          exact hpre i ((lo + hi) >>> 1) (by omega) (by omega) hf
        obtain ⟨r1, r2, r3, r4⟩ :=
          ih ((lo + hi) >>> 1 + 1) hi hhn (by omega) (by omega) hlow' hhigh
        exact ⟨by omega, r2, r3, r4⟩
      | false =>
        rw [if_neg (by simp [hf])]
        have hhigh' : ∀ i, (lo + hi) >>> 1 ≤ i → i < n →
            func (aget a i) v = false := by
          intro i hi2 hi3
          cases hfi : func (aget a i) v with
          | false => rfl
          | true =>
            have := hpre ((lo + hi) >>> 1) i hi2 hi3 hfi
            rw [this] at hf
            exact Bool.noConfusion hf
        obtain ⟨r1, r2, r3, r4⟩ :=
          ih lo ((lo + hi) >>> 1) (by omega) (by omega) (by omega) hlow hhigh'
        exact ⟨r1, by omega, r3, r4⟩

theorem RVal.fin_le_fin {p q : ℚ} : RVal.fin p ≤ RVal.fin q ↔ p ≤ q := by
  rw [RVal.le_def]
  simp [RVal.toX, WithBot.coe_le_coe, WithTop.coe_le_coe]

/-- The value shape of a NumPy-sorted float array: finite sorted values
followed by NaNs.  Reads below `b.length` hit the finite part. -/
theorem aget_sorted_shape_lt (b : List ℚ) (m : ℕ) {j : ℕ} (hj : j < b.length) :
    aget (b.map RVal.fin ++ List.replicate m RVal.nan) j
      = RVal.fin (b.getD j 0) := by
  unfold aget
  rw [List.getD_append _ _ _ _ (by simpa using hj)]
  rw [List.getD_eq_getElem _ _ (by simpa using hj), List.getElem_map]
  rw [List.getD_eq_getElem _ _ hj]

/-- Reads at or above `b.length` hit the NaN tail. -/
theorem aget_sorted_shape_ge (b : List ℚ) (m : ℕ) {j : ℕ}
    (h1 : b.length ≤ j) (h2 : j < b.length + m) :
    aget (b.map RVal.fin ++ List.replicate m RVal.nan) j = RVal.nan := by
  unfold aget
  rw [List.getD_append_right _ _ _ _ (by simpa using h1)]
  rw [List.getD_eq_getElem _ _ (by simp; omega)]
  simp

theorem sorted_shape_pairwise (b : List ℚ) (m : ℕ)
    (hb : b.Pairwise (· ≤ ·)) :
    (b.map RVal.fin ++ List.replicate m RVal.nan).Pairwise (· ≤ ·) := by
  rw [List.pairwise_append]
  refine ⟨List.Pairwise.map _ (fun _ _ hpq => RVal.fin_le_fin.mpr hpq) hb, ?_, ?_⟩
  · clear hb
    induction m with
    | zero => exact List.Pairwise.nil
    | succ m ih =>
      rw [List.replicate_succ]
      exact List.Pairwise.cons
        (fun y hy => by rw [List.eq_of_mem_replicate hy]) ih
  · intro x hx y hy
    rw [List.eq_of_mem_replicate hy]
    exact RVal.le_nan x

/-- Inserting `v` between a prefix bounded above by `v` and a suffix
bounded below by `v` keeps the array sorted. -/
theorem insert_sorted (a : List RVal) (v : RVal) (idx : ℕ)
    (hs : a.Pairwise (· ≤ ·)) (hidx : idx ≤ a.length)
    (hpre : ∀ i, i < idx → aget a i ≤ v)
    (hsuf : ∀ i, idx ≤ i → i < a.length → v ≤ aget a i) :
    (a.take idx ++ v :: a.drop idx).Pairwise (· ≤ ·) := by
  have hmem_take : ∀ x ∈ a.take idx, x ≤ v := by
    intro x hx
    obtain ⟨i, hil, hieq⟩ := List.mem_iff_getElem.mp hx
    have hi1 : i < idx := by
      have := hil
      simp at this
      omega
    have hi2 : i < a.length := by
      have := hil
      simp at this
      omega
    rw [← hieq, List.getElem_take]
    rw [← List.getD_eq_getElem a default hi2]
    exact hpre i hi1
  have hmem_drop : ∀ x ∈ a.drop idx, v ≤ x := by
    intro x hx
    obtain ⟨i, hil, hieq⟩ := List.mem_iff_getElem.mp hx
    have hi2 : idx + i < a.length := by
      have := hil
      simp at this
      omega
    rw [← hieq, List.getElem_drop]
    rw [← List.getD_eq_getElem a default hi2]
    exact hsuf (idx + i) (by omega) hi2
  rw [List.pairwise_append]
  refine ⟨?_, ?_, ?_⟩
  · exact List.Pairwise.sublist (List.take_sublist idx a) hs
  · rw [List.pairwise_cons]
    exact ⟨hmem_drop, List.Pairwise.sublist (List.drop_sublist idx a) hs⟩
  · intro x hx y hy
    rcases List.mem_cons.mp hy with rfl | hy2
    · exact hmem_take x hx
    · exact le_trans (hmem_take x hx) (hmem_drop y hy2)

/-- `nanScan` finds the index just past the last non-NaN entry. -/
theorem nanScan_eq (a : List RVal) (t : ℕ)
    (h0 : t = 0 ∨ (aget a (t-1)).isnan = false) :
    ∀ k, t ≤ k → (∀ j, t ≤ j → j < k → (aget a j).isnan = true) →
    nanScan a k = t := by
  intro k
  induction k with
  | zero =>
    intro htk _
    have : t = 0 := by omega
    subst this
    rfl
  | succ k ih =>
    intro htk hall
    unfold nanScan
    by_cases hk : t = k + 1
    · subst hk
      rcases h0 with h | h
      · exact absurd h (by omega)
      · rw [if_pos (by simpa using h)]
    · have hkt : t ≤ k := by omega
      rw [if_neg (by simp [hall k hkt (by omega)])]
      exact ih hkt (fun j hj1 hj2 => hall j hj1 (by omega))

/-- C5: on a NumPy-sorted array (sorted finite values, then NaNs), the
`left` insertion point strictly bounds the prefix below `v` and the
suffix at-or-above `v`; the `right` insertion point bounds the prefix
at-or-below `v` and the suffix strictly above `v` (comparisons in the
NaN-aware order of `nan_aware_less_than`, under which the NaN tail sorts
last); inserting `v` at either index preserves sortedness; and a NaN
query lands immediately after the last non-NaN element. -/
theorem searchsorted_spec (b : List ℚ) (m : ℕ) (v : RVal) (a : List RVal)
    (ha : a = b.map RVal.fin ++ List.replicate m RVal.nan)
    (hb : List.Pairwise (· ≤ ·) b) :
    (v.isnan = false →
      (∀ i, i < _searchsorted_left a v →
        nan_aware_less_than (aget a i) v = true) ∧
      (∀ i, _searchsorted_left a v ≤ i → i < a.length →
        nan_aware_less_than (aget a i) v = false) ∧
      (∀ i, i < _searchsorted_right a v →
        nan_aware_less_than v (aget a i) = false) ∧
      (∀ i, _searchsorted_right a v ≤ i → i < a.length →
        nan_aware_less_than v (aget a i) = true) ∧
      List.Pairwise (· ≤ ·)
        (a.take (_searchsorted_left a v) ++ v :: a.drop (_searchsorted_left a v)) ∧
      List.Pairwise (· ≤ ·)
        (a.take (_searchsorted_right a v) ++ v :: a.drop (_searchsorted_right a v))) ∧
    (v.isnan = true →
      _searchsorted_left a v = b.length ∧ _searchsorted_right a v = b.length) := by
  have hpair : List.Pairwise (· ≤ ·) a := ha ▸ sorted_shape_pairwise b m hb
  have hget_le : ∀ i j, i ≤ j → j < a.length → aget a i ≤ aget a j := by
    intro i j hij hj
    rcases eq_or_lt_of_le hij with rfl | hlt
    · exact le_refl _
    · have h2 := List.pairwise_iff_getElem.mp hpair i j (by omega) hj hlt
      rwa [← List.getD_eq_getElem a default (by omega),
        ← List.getD_eq_getElem a default hj] at h2
  constructor
  · intro hv
    have hpreL : ∀ i j, i ≤ j → j < a.length → rlt (aget a j) v = true →
        rlt (aget a i) v = true := by
      intro i j hij hj hf
      rw [rlt_eq_decide_lt hv] at hf ⊢
      simp only [decide_eq_true_eq] at hf ⊢
      exact lt_of_le_of_lt (hget_le i j hij hj) hf
    have hpreR : ∀ i j, i ≤ j → j < a.length → rle (aget a j) v = true →
        rle (aget a i) v = true := by
      intro i j hij hj hf
      rw [rle_eq_decide_le hv] at hf ⊢
      simp only [decide_eq_true_eq] at hf ⊢
      exact le_trans (hget_le i j hij hj) hf
    obtain ⟨l1, l2, l3, l4⟩ := ssBisect_spec rlt a v a.length rfl hpreL
      a.length 0 a.length (le_refl _) (by omega) (by omega)
      (fun i h => absurd h (Nat.not_lt_zero i))
      (fun i h1 h2 => absurd h2 (by omega))
    obtain ⟨r1, r2, r3, r4⟩ := ssBisect_spec rle a v a.length rfl hpreR
      a.length 0 a.length (le_refl _) (by omega) (by omega)
      (fun i h => absurd h (Nat.not_lt_zero i))
      (fun i h1 h2 => absurd h2 (by omega))
    have hidL : _searchsorted_left a v = ssBisect rlt a v a.length 0 a.length := by
      unfold _searchsorted_left searchsorted_inner
      rw [if_neg (by simp [hv])]
    have hidR : _searchsorted_right a v = ssBisect rle a v a.length 0 a.length := by
      unfold _searchsorted_right searchsorted_inner
      rw [if_neg (by simp [hv])]
    refine ⟨?_, ?_, ?_, ?_, ?_, ?_⟩
    · intro i hi
      rw [hidL] at hi
      rw [nan_aware_less_than_eq_decide, ← rlt_eq_decide_lt hv]
      exact l3 i hi
    · intro i hi1 hi2
      rw [hidL] at hi1
      rw [nan_aware_less_than_eq_decide, ← rlt_eq_decide_lt hv]
      exact l4 i hi1 hi2
    · intro i hi
      rw [hidR] at hi
      have h2 := r3 i hi
      rw [rle_eq_decide_le hv] at h2
      simp only [decide_eq_true_eq] at h2
      rw [nan_aware_less_than_eq_decide]
      simp [not_lt.mpr h2]
    · intro i hi1 hi2
      rw [hidR] at hi1
      have h2 := r4 i hi1 hi2
      rw [rle_eq_decide_le hv] at h2
      simp only [decide_eq_false_iff_not] at h2
      rw [nan_aware_less_than_eq_decide]
      simp [lt_of_not_le h2]
    · apply insert_sorted a v _ hpair
      · rw [hidL]; exact l2
      · intro i hi
        rw [hidL] at hi
        have h2 := l3 i hi
        rw [rlt_eq_decide_lt hv] at h2
        simp only [decide_eq_true_eq] at h2
        exact le_of_lt h2
      · intro i hi1 hi2
        rw [hidL] at hi1
        have h2 := l4 i hi1 hi2
        rw [rlt_eq_decide_lt hv] at h2
        simp only [decide_eq_false_iff_not] at h2
        exact not_lt.mp h2
    · apply insert_sorted a v _ hpair
      · rw [hidR]; exact r2
      · intro i hi
        rw [hidR] at hi
        have h2 := r3 i hi
        rw [rle_eq_decide_le hv] at h2
        simp only [decide_eq_true_eq] at h2
        exact h2
      · intro i hi1 hi2
        rw [hidR] at hi1
        have h2 := r4 i hi1 hi2
        rw [rle_eq_decide_le hv] at h2
        simp only [decide_eq_false_iff_not] at h2
        exact le_of_lt (lt_of_not_le h2)
  · intro hv
    have hlen : a.length = b.length + m := by subst ha; simp
    have hscan : nanScan a a.length = b.length := by
      apply nanScan_eq a b.length
      · rcases b with _ | ⟨x, t⟩
        · left; rfl
        · right
          subst ha
          rw [aget_sorted_shape_lt _ _
            (show (x :: t).length - 1 < (x :: t).length from by simp)]
          rfl
      · omega
      · intro j hj1 hj2
        subst ha
        rw [aget_sorted_shape_ge _ _ hj1 (by omega)]
        rfl
    constructor
    · unfold _searchsorted_left searchsorted_inner
      rw [if_pos hv]
      exact hscan
    · unfold _searchsorted_right searchsorted_inner
      rw [if_pos hv]
      exact hscan

theorem searchsorted_spec_witness :
    ([RVal.fin 1, RVal.fin 3, RVal.fin 5, RVal.fin 7]
        = ([1, 3, 5, 7] : List ℚ).map RVal.fin ++ List.replicate 0 RVal.nan ∧
      List.Pairwise (· ≤ ·) ([1, 3, 5, 7] : List ℚ) ∧
      (RVal.fin 4).isnan = false) ∧
    (∀ i, i < _searchsorted_left [RVal.fin 1, RVal.fin 3, RVal.fin 5, RVal.fin 7]
        (RVal.fin 4) →
      nan_aware_less_than
        (aget [RVal.fin 1, RVal.fin 3, RVal.fin 5, RVal.fin 7] i)
        (RVal.fin 4) = true) := by
  have h1 : [RVal.fin 1, RVal.fin 3, RVal.fin 5, RVal.fin 7]
      = ([1, 3, 5, 7] : List ℚ).map RVal.fin ++ List.replicate 0 RVal.nan := by
    simp
  have h2 : List.Pairwise (· ≤ ·) ([1, 3, 5, 7] : List ℚ) := by
    simp [List.pairwise_cons]
    norm_num
  exact ⟨⟨h1, h2, rfl⟩,
    ((searchsorted_spec [1, 3, 5, 7] 0 (RVal.fin 4) _ h1 h2).1 rfl).1⟩

/-! ## 1-D interpolation (`np.interp`)

`binary_search_with_guess` (the pre-1.15 facsimile): cached-guess
search that probes `guess - 1, guess, guess + 1` (with a
`LIKELY_IN_CACHE_SIZE = 8` window refinement) before falling back to
bisection.  `np_interp_impl_inner_116` is the post-1.16 facsimile of
`arr_interp` (the variant `np.interp` selects on current NumPy), which
adds the `dx[j] == x_val` exact-sample short-circuit;
`np_interp_impl_inner` is the pre-1.16 facsimile without it. -/

/-- The final bisection loop of `binary_search_with_guess`
(`while imin < imax`), with explicit fuel (`imax - imin` suffices). -/
def bswgBisect (arr : List RVal) (key : RVal) : ℕ → ℕ → ℕ → ℕ
  | 0, imin, _ => imin
  | fuel+1, imin, imax =>
      if imin < imax then
        if rle (aget arr (imin + ((imax - imin) >>> 1))) key then
          bswgBisect arr key fuel (imin + ((imax - imin) >>> 1) + 1) imax
        else bswgBisect arr key fuel imin (imin + ((imax - imin) >>> 1))
      else imin

/-- The `length <= 4` linear search of `binary_search_with_guess`
(`i = 1; while i < length and key >= arr[i]: i += 1`), with explicit
fuel. -/
def bswgLinear (arr : List RVal) (key : RVal) (length : ℕ) : ℕ → ℕ → ℕ
  | 0, i => i
  | fuel+1, i =>
      if decide (i < length) && rle (aget arr i) key then
        bswgLinear arr key length fuel (i+1)
      else i

/-- `LIKELY_IN_CACHE_SIZE`. -/
def LIKELY_IN_CACHE_SIZE : ℕ := 8

/-- The probe phase of `binary_search_with_guess` after the guess has
been clamped to `[1, length - 3]`: check `guess - 1, guess, guess + 1`
(narrowing to the `LIKELY_IN_CACHE_SIZE` window where possible) and fall
back to bisection. -/
def bswg_probe (key : RVal) (arr : List RVal) (length g : ℕ) : ℤ :=
  if rlt key (aget arr g) then
    if rlt key (aget arr (g - 1)) then
      let imin : ℕ :=
        if LIKELY_IN_CACHE_SIZE < g ∧
            rle (aget arr (g - LIKELY_IN_CACHE_SIZE)) key = true then
          g - LIKELY_IN_CACHE_SIZE
        else 0
      ((bswgBisect arr key ((g - 1) - imin) imin (g - 1) : ℕ) : ℤ) - 1
    else (g : ℤ) - 1
  else
    if rlt key (aget arr (g + 1)) then (g : ℤ)
    else if rlt key (aget arr (g + 2)) then (g : ℤ) + 1
    else
      let imax : ℕ :=
        if g + LIKELY_IN_CACHE_SIZE + 1 < length ∧
            rlt key (aget arr (g + LIKELY_IN_CACHE_SIZE)) = true then
          g + LIKELY_IN_CACHE_SIZE
        else length
      ((bswgBisect arr key (imax - (g + 2)) (g + 2) imax : ℕ) : ℤ) - 1

/-- `binary_search_with_guess(key, arr, length, guess)`: returns `-1`
for a key below `arr[0]`, `length` for a key above `arr[length-1]`,
else the greatest index `j` with `arr[j] <= key` (and
`key < arr[j+1]` unless `j = length - 1`). -/
def binary_search_with_guess (key : RVal) (arr : List RVal) (length : ℕ)
    (guess : ℤ) : ℤ :=
  if rlt (aget arr (length - 1)) key then (length : ℤ)
  else if rlt key (aget arr 0) then -1
  else if length ≤ 4 then
    ((bswgLinear arr key length (length - 1) 1 : ℕ) : ℤ) - 1
  else
    let g2 : ℤ := if (length : ℤ) - 3 < guess then (length : ℤ) - 3 else guess
    bswg_probe key arr length (if g2 < 1 then 1 else g2).toNat

/-- The per-query loop of `np_interp_impl_inner_116`, threading the
running guess `j` across queries. -/
def interpLoop116 (dx dy : List RVal) (lenxp : ℕ) (lval rval : RVal)
    (slopes : List RVal) : List RVal → ℤ → List RVal
  | [], _ => []
  | xv :: rest, j =>
      if xv.isnan = true then
        xv :: interpLoop116 dx dy lenxp lval rval slopes rest j
      else
        let j2 := binary_search_with_guess xv dx lenxp j
        (if j2 = -1 then lval
         else if j2 = (lenxp : ℤ) then rval
         else if j2 = (lenxp : ℤ) - 1 then aget dy j2.toNat
         else if req (aget dx j2.toNat) xv then aget dy j2.toNat
         else
           (let slope := if slopes.length ≠ 0 then aget slopes j2.toNat
              else rdiv (rsub (aget dy (j2.toNat + 1)) (aget dy j2.toNat))
                (rsub (aget dx (j2.toNat + 1)) (aget dx j2.toNat))
            radd (rmul slope (rsub xv (aget dx j2.toNat))) (aget dy j2.toNat)))
          :: interpLoop116 dx dy lenxp lval rval slopes rest j2

/-- The per-query loop of the pre-1.16 `np_interp_impl_inner`: identical
except for the missing `dx[j] == x_val` short-circuit. -/
def interpLoop115 (dx dy : List RVal) (lenxp : ℕ) (lval rval : RVal)
    (slopes : List RVal) : List RVal → ℤ → List RVal
  | [], _ => []
  | xv :: rest, j =>
      if xv.isnan = true then
        xv :: interpLoop115 dx dy lenxp lval rval slopes rest j
      else
        let j2 := binary_search_with_guess xv dx lenxp j
        (if j2 = -1 then lval
         else if j2 = (lenxp : ℤ) then rval
         else if j2 = (lenxp : ℤ) - 1 then aget dy j2.toNat
         else
           (let slope := if slopes.length ≠ 0 then aget slopes j2.toNat
              else rdiv (rsub (aget dy (j2.toNat + 1)) (aget dy j2.toNat))
                (rsub (aget dx (j2.toNat + 1)) (aget dx j2.toNat))
            radd (rmul slope (rsub xv (aget dx j2.toNat))) (aget dy j2.toNat)))
          :: interpLoop115 dx dy lenxp lval rval slopes rest j2

/-- The precomputed slopes (`(dy[1:] - dy[:-1]) / (dx[1:] - dx[:-1])`),
built only when `lenxp <= lenx`. -/
def interpSlopes (dx dy : List RVal) (lenx : ℕ) : List RVal :=
  if dx.length ≤ lenx then
    (List.range (dx.length - 1)).map (fun i =>
      rdiv (rsub (aget dy (i+1)) (aget dy i)) (rsub (aget dx (i+1)) (aget dx i)))
  else []

/-- `np_interp_impl_inner_116(x, xp, fp, dtype)` (scalar queries kept as
a list; the `lenxp == 1` branch of the source is subsumed by the
`dx.size == 1` early return). -/
def np_interp_impl_inner_116 (x xp fp : List RVal) : Except Err (List RVal) :=
  if xp.length = 0 then .error .sampleArrayEmpty
  else if xp.length ≠ fp.length then .error .sampleSizeMismatch
  else if xp.length = 1 then .ok (x.map (fun _ => aget fp 0))
  else
    .ok (interpLoop116 xp fp xp.length (aget fp 0) (aget fp (xp.length - 1))
      (interpSlopes xp fp x.length) x 0)

/-- `np_interp_impl_inner(x, xp, fp, dtype)`: the pre-1.16 variant. -/
def np_interp_impl_inner (x xp fp : List RVal) : Except Err (List RVal) :=
  if xp.length = 0 then .error .sampleArrayEmpty
  else if xp.length ≠ fp.length then .error .sampleSizeMismatch
  else if xp.length = 1 then .ok (x.map (fun _ => aget fp 0))
  else
    .ok (interpLoop115 xp fp xp.length (aget fp 0) (aget fp (xp.length - 1))
      (interpSlopes xp fp x.length) x 0)

theorem RVal.fin_lt_fin {p q : ℚ} : RVal.fin p < RVal.fin q ↔ p < q := by
  rw [RVal.lt_def]
  simp [RVal.toX, WithBot.coe_lt_coe, WithTop.coe_lt_coe]

theorem aget_map_fin (xs : List ℚ) {i : ℕ} (h : i < xs.length) :
    aget (xs.map RVal.fin) i = RVal.fin (xs.getD i 0) := by
  unfold aget
  rw [List.getD_eq_getElem _ _ (by simpa using h), List.getElem_map,
    List.getD_eq_getElem _ _ h]

/-- Bisection phase of `binary_search_with_guess`: with truth of
`arr[i] <= key` prefix-closed, the loop keeps the prefix/suffix split
and lands on the boundary. -/
theorem bswgBisect_spec (arr : List RVal) (key : RVal) (n : ℕ)
    (hn : n = arr.length)
    (hpre : ∀ i j, i ≤ j → j < n → rle (aget arr j) key = true →
      rle (aget arr i) key = true) :
    ∀ fuel imin imax, imax ≤ n → imin ≤ imax → imax - imin ≤ fuel →
      (∀ i, i < imin → rle (aget arr i) key = true) →
      (∀ i, imax ≤ i → i < n → rle (aget arr i) key = false) →
      imin ≤ bswgBisect arr key fuel imin imax ∧
      bswgBisect arr key fuel imin imax ≤ imax ∧
      (∀ i, i < bswgBisect arr key fuel imin imax →
        rle (aget arr i) key = true) ∧
      (∀ i, bswgBisect arr key fuel imin imax ≤ i → i < n →
        rle (aget arr i) key = false) := by
  intro fuel
  induction fuel with
  | zero =>
    intro imin imax hxn hmm hfuel hlow hhigh
    have : imax = imin := by omega
    subst this
    exact ⟨le_refl _, le_refl _, hlow, hhigh⟩
  | succ fuel ih =>
    intro imin imax hxn hmm hfuel hlow hhigh
    unfold bswgBisect
    by_cases hc : imin < imax
    · rw [if_pos hc]
      have hmid1 : imin ≤ imin + ((imax - imin) >>> 1) := by omega
      have hmid2 : imin + ((imax - imin) >>> 1) < imax := by
        simp only [Nat.shiftRight_one]
        omega
      cases hf : rle (aget arr (imin + ((imax - imin) >>> 1))) key with
      | true =>
        rw [if_pos rfl]
        have hlow' : ∀ i, i < imin + ((imax - imin) >>> 1) + 1 →
            rle (aget arr i) key = true := by
          intro i hi
          exact hpre i (imin + ((imax - imin) >>> 1)) (by omega) (by omega) hf
        obtain ⟨r1, r2, r3, r4⟩ := ih (imin + ((imax - imin) >>> 1) + 1) imax
          hxn (by omega) (by omega) hlow' hhigh
        exact ⟨by omega, r2, r3, r4⟩
      | false =>
        rw [if_neg (by simp [hf])]
        have hhigh' : ∀ i, imin + ((imax - imin) >>> 1) ≤ i → i < n →
            rle (aget arr i) key = false := by
          intro i hi1 hi2
          cases hfi : rle (aget arr i) key with
          | false => rfl
          | true =>
            have := hpre (imin + ((imax - imin) >>> 1)) i hi1 hi2 hfi
            rw [this] at hf
            exact Bool.noConfusion hf
        obtain ⟨r1, r2, r3, r4⟩ := ih imin (imin + ((imax - imin) >>> 1))
          (by omega) (by omega) (by omega) hlow hhigh'
        exact ⟨r1, by omega, r3, r4⟩
    · rw [if_neg hc]
      have : imax = imin := by omega
      subst this
      exact ⟨le_refl _, le_refl _, hlow, hhigh⟩

/-- The `length <= 4` linear phase: scan forward from index 1 while
`key >= arr[i]`. -/
theorem bswgLinear_spec (arr : List RVal) (key : RVal) (n : ℕ) :
    ∀ fuel i, 1 ≤ i → i ≤ n → n - i ≤ fuel →
      (∀ t, 1 ≤ t → t < i → rle (aget arr t) key = true) →
      i ≤ bswgLinear arr key n fuel i ∧
      bswgLinear arr key n fuel i ≤ n ∧
      (∀ t, 1 ≤ t → t < bswgLinear arr key n fuel i →
        rle (aget arr t) key = true) ∧
      (bswgLinear arr key n fuel i < n →
        rle (aget arr (bswgLinear arr key n fuel i)) key = false) := by
  intro fuel
  induction fuel with
  | zero =>
    intro i h1 hin hfuel hpre
    have : i = n := by omega
    subst this
    exact ⟨le_refl _, le_refl _, hpre, fun h => absurd h (lt_irrefl _)⟩
  | succ fuel ih =>
    intro i h1 hin hfuel hpre
    unfold bswgLinear
    by_cases hc : i < n
    · cases hf : rle (aget arr i) key with
      | true =>
        rw [if_pos (by simp [hc, hf])]
        have hpre2 : ∀ t, 1 ≤ t → t < i + 1 → rle (aget arr t) key = true := by
          intro t ht1 ht2
          rcases Nat.lt_or_ge t i with h | h
          · exact hpre t ht1 h
          · have : t = i := by omega
            subst this
            exact hf
        obtain ⟨r1, r2, r3, r4⟩ := ih (i+1) (by omega) (by omega) (by omega) hpre2
        exact ⟨by omega, r2, r3, r4⟩
      | false =>
        rw [if_neg (by simp [hf])]
        exact ⟨le_refl _, by omega, hpre, fun _ => hf⟩
    · rw [if_neg (by simp [hc])]
      have : i = n := by omega
      subst this
      exact ⟨le_refl _, by omega, hpre, fun h => absurd h (by omega)⟩

section BswgSpec

/-- Monotone access on a strictly sorted finite sample array. -/
theorem arr_aget_le (xs : List ℚ) (hs : List.Pairwise (· < ·) xs) {i j : ℕ} (hij : i ≤ j)
    (hj : j < xs.length) :
    aget (xs.map RVal.fin) i ≤ aget (xs.map RVal.fin) j := by
  rcases eq_or_lt_of_le hij with rfl | hlt
  · exact le_refl _
  · rw [aget_map_fin xs (by omega), aget_map_fin xs hj]
    exact le_of_lt (RVal.fin_lt_fin.mpr (by
      have h2 := List.pairwise_iff_getElem.mp hs i j (by omega) hj hlt
      rwa [← List.getD_eq_getElem xs 0 (by omega),
        ← List.getD_eq_getElem xs 0 hj] at h2))

theorem arr_isnan_false (xs : List ℚ) {i : ℕ} (hi : i < xs.length) :
    (aget (xs.map RVal.fin) i).isnan = false := by
  rw [aget_map_fin xs hi]
  rfl

/-- `arr[j] <= key` is prefix-closed in `j`. -/
theorem rle_prefix_closed (xs : List ℚ) (key : RVal) (hk : key.isnan = false)
    (hs : List.Pairwise (· < ·) xs) :
    ∀ i j, i ≤ j → j < xs.length →
      rle (aget (xs.map RVal.fin) j) key = true →
      rle (aget (xs.map RVal.fin) i) key = true := by
  intro i j hij hj hf
  rw [rle_eq_decide_le hk] at hf ⊢
  simp only [decide_eq_true_eq] at hf ⊢
  exact le_trans (arr_aget_le xs hs hij hj) hf

/-- `not (key < arr[i])` gives `arr[i] <= key`. -/
theorem rle_of_not_rlt (xs : List ℚ) (key : RVal) (hk : key.isnan = false)
    {i : ℕ} (hi : i < xs.length)
    (h : rlt key (aget (xs.map RVal.fin) i) = false) :
    rle (aget (xs.map RVal.fin) i) key = true := by
  rw [rlt_eq_decide_lt (arr_isnan_false xs hi)] at h
  simp only [decide_eq_false_iff_not] at h
  rw [rle_eq_decide_le hk]
  simp [not_lt.mp h]

/-- `arr[i] <= key` failing gives `key < arr[i]`. -/
theorem rlt_of_rle_false (xs : List ℚ) (key : RVal) (hk : key.isnan = false)
    {i : ℕ} (hi : i < xs.length)
    (h : rle (aget (xs.map RVal.fin) i) key = false) :
    rlt key (aget (xs.map RVal.fin) i) = true := by
  rw [rle_eq_decide_le hk] at h
  simp only [decide_eq_false_iff_not] at h
  rw [rlt_eq_decide_lt (arr_isnan_false xs hi)]
  simp [lt_of_not_le h]

/-- `key < arr[i0]` kills `arr[i] <= key` for every `i` at or above
`i0`. -/
theorem rle_false_of_key_lt (xs : List ℚ) (key : RVal)
    (hk : key.isnan = false) (hs : List.Pairwise (· < ·) xs)
    {i0 : ℕ} (hi0 : i0 < xs.length)
    (hkey : rlt key (aget (xs.map RVal.fin) i0) = true) :
    ∀ i, i0 ≤ i → i < xs.length →
      rle (aget (xs.map RVal.fin) i) key = false := by
  intro i hi hin
  rw [rlt_eq_decide_lt (arr_isnan_false xs hi0)] at hkey
  simp only [decide_eq_true_eq] at hkey
  rw [rle_eq_decide_le hk]
  simp only [decide_eq_false_iff_not]
  intro hle
  exact absurd hle (not_le.mpr (lt_of_lt_of_le hkey (arr_aget_le xs hs hi hin)))

/-- Packaging: a boundary index `R` with the prefix/suffix split around
it yields the bracket conclusions for the returned `R - 1`. -/
theorem bswg_finish (xs : List ℚ) (key : RVal) (hk : key.isnan = false)
    (R : ℕ) (h1 : 1 ≤ R) (h2 : R ≤ xs.length)
    (hpre : ∀ i, i < R → rle (aget (xs.map RVal.fin) i) key = true)
    (hsuf : ∀ i, R ≤ i → i < xs.length →
      rle (aget (xs.map RVal.fin) i) key = false) :
    0 ≤ ((R : ℤ) - 1) ∧ ((R : ℤ) - 1) ≤ (xs.length : ℤ) - 1 ∧
    rle (aget (xs.map RVal.fin) ((R : ℤ) - 1).toNat) key = true ∧
    (((R : ℤ) - 1) = (xs.length : ℤ) - 1 ∨
      rlt key (aget (xs.map RVal.fin) (((R : ℤ) - 1).toNat + 1)) = true) := by
  have htn : ((R : ℤ) - 1).toNat = R - 1 := by omega
  refine ⟨by omega, by omega, ?_, ?_⟩
  · rw [htn]
    exact hpre (R - 1) (by omega)
  · rcases eq_or_lt_of_le h2 with heq | hRn
    · left
      omega
    · right
      rw [htn, show R - 1 + 1 = R from by omega]
      exact rlt_of_rle_false xs key hk hRn (hsuf R (by omega) hRn)

/-- The probe phase delivers the bracket for any clamped guess. -/
theorem bswg_probe_spec (xs : List ℚ) (key : RVal)
    (hk : key.isnan = false) (hs : List.Pairwise (· < ·) xs)
    (hup : rlt (aget (xs.map RVal.fin) (xs.length - 1)) key = false)
    (hlo : rlt key (aget (xs.map RVal.fin) 0) = false)
    (h5 : 5 ≤ xs.length) (g : ℕ) (hg1 : 1 ≤ g) (hg2 : g ≤ xs.length - 3) :
    0 ≤ bswg_probe key (xs.map RVal.fin) xs.length g ∧
    bswg_probe key (xs.map RVal.fin) xs.length g ≤ (xs.length : ℤ) - 1 ∧
    rle (aget (xs.map RVal.fin)
      (bswg_probe key (xs.map RVal.fin) xs.length g).toNat) key = true ∧
    (bswg_probe key (xs.map RVal.fin) xs.length g = (xs.length : ℤ) - 1 ∨
      rlt key (aget (xs.map RVal.fin)
        ((bswg_probe key (xs.map RVal.fin) xs.length g).toNat + 1)) = true) := by
  have hn := xs.length
  have h0key : rle (aget (xs.map RVal.fin) 0) key = true :=
    rle_of_not_rlt xs key hk (by omega) hlo
  unfold bswg_probe
  cases hpg : rlt key (aget (xs.map RVal.fin) g) with
  | true =>
    rw [if_pos rfl]
    cases hpg1 : rlt key (aget (xs.map RVal.fin) (g - 1)) with
    | true =>
      rw [if_pos rfl]
      -- bisection on [imin, g-1]
      have hsufb : ∀ i, g - 1 ≤ i → i < xs.length →
          rle (aget (xs.map RVal.fin) i) key = false :=
        rle_false_of_key_lt xs key hk hs (by omega) hpg1
      by_cases hwin : LIKELY_IN_CACHE_SIZE < g ∧
          rle (aget (xs.map RVal.fin) (g - LIKELY_IN_CACHE_SIZE)) key = true
      · rw [if_pos hwin]
        obtain ⟨r1, r2, r3, r4⟩ := bswgBisect_spec (xs.map RVal.fin) key
          xs.length (by simp) (rle_prefix_closed xs key hk hs)
          ((g - 1) - (g - LIKELY_IN_CACHE_SIZE)) (g - LIKELY_IN_CACHE_SIZE) (g - 1)
          (by omega) (by unfold LIKELY_IN_CACHE_SIZE at hwin ⊢; omega) (le_refl _)
          (fun i hi => rle_prefix_closed xs key hk hs i
            (g - LIKELY_IN_CACHE_SIZE) (by omega) (by omega) hwin.2)
          (fun i hi1 hi2 => hsufb i (by omega) hi2)
        have hR1 : 1 ≤ bswgBisect (xs.map RVal.fin) key
            ((g - 1) - (g - LIKELY_IN_CACHE_SIZE)) (g - LIKELY_IN_CACHE_SIZE)
            (g - 1) := by
          by_contra hcon
          have hR0 : bswgBisect (xs.map RVal.fin) key
              ((g - 1) - (g - LIKELY_IN_CACHE_SIZE)) (g - LIKELY_IN_CACHE_SIZE)
              (g - 1) = 0 := by omega
          have := r4 0 (by omega) (by omega)
          rw [h0key] at this
          exact Bool.noConfusion this
        exact bswg_finish xs key hk _ hR1 (by omega) r3 r4
      · rw [if_neg hwin]
        obtain ⟨r1, r2, r3, r4⟩ := bswgBisect_spec (xs.map RVal.fin) key
          xs.length (by simp) (rle_prefix_closed xs key hk hs)
          ((g - 1) - 0) 0 (g - 1) (by omega) (by omega) (le_refl _)
          (fun i hi => absurd hi (Nat.not_lt_zero i))
          (fun i hi1 hi2 => hsufb i (by omega) hi2)
        have hR1 : 1 ≤ bswgBisect (xs.map RVal.fin) key ((g - 1) - 0) 0 (g - 1) := by
          by_contra hcon
          have := r4 0 (by omega) (by omega)
          rw [h0key] at this
          exact Bool.noConfusion this
        exact bswg_finish xs key hk _ hR1 (by omega) r3 r4
    | false =>
      rw [if_neg (by simp)]
      have hg1key : rle (aget (xs.map RVal.fin) (g - 1)) key = true :=
        rle_of_not_rlt xs key hk (by omega) hpg1
      have htn : ((g : ℤ) - 1).toNat = g - 1 := by omega
      refine ⟨by omega, by omega, ?_, ?_⟩
      · rw [htn]
        exact hg1key
      · right
        rw [htn, show g - 1 + 1 = g from by omega]
        exact hpg
  | false =>
    rw [if_neg (by simp)]
    have hgkey : rle (aget (xs.map RVal.fin) g) key = true :=
      rle_of_not_rlt xs key hk (by omega) hpg
    cases hpg1 : rlt key (aget (xs.map RVal.fin) (g + 1)) with
    | true =>
      rw [if_pos rfl]
      refine ⟨by omega, by omega, ?_, Or.inr ?_⟩
      · simpa using hgkey
      · simpa using hpg1
    | false =>
      rw [if_neg (by simp)]
      have hg1key : rle (aget (xs.map RVal.fin) (g + 1)) key = true :=
        rle_of_not_rlt xs key hk (by omega) hpg1
      cases hpg2 : rlt key (aget (xs.map RVal.fin) (g + 2)) with
      | true =>
        rw [if_pos rfl]
        refine ⟨by omega, by omega, ?_, Or.inr ?_⟩
        · rw [show ((g : ℤ) + 1).toNat = g + 1 from by omega]
          exact hg1key
        · rw [show ((g : ℤ) + 1).toNat + 1 = g + 2 from by omega]
          exact hpg2
      | false =>
        rw [if_neg (by simp)]
        have hpreb : ∀ i, i < g + 2 →
            rle (aget (xs.map RVal.fin) i) key = true := by
          intro i hi
          exact rle_prefix_closed xs key hk hs i (g + 1) (by omega) (by omega)
            hg1key
        by_cases hwin : g + LIKELY_IN_CACHE_SIZE + 1 < xs.length ∧
            rlt key (aget (xs.map RVal.fin) (g + LIKELY_IN_CACHE_SIZE)) = true
        · rw [if_pos hwin]
          obtain ⟨r1, r2, r3, r4⟩ := bswgBisect_spec (xs.map RVal.fin) key
            xs.length (by simp) (rle_prefix_closed xs key hk hs)
            ((g + LIKELY_IN_CACHE_SIZE) - (g + 2)) (g + 2)
            (g + LIKELY_IN_CACHE_SIZE)
            (by unfold LIKELY_IN_CACHE_SIZE at hwin ⊢; omega)
            (by unfold LIKELY_IN_CACHE_SIZE; omega) (le_refl _)
            (fun i hi => hpreb i hi)
            (fun i hi1 hi2 => rle_false_of_key_lt xs key hk hs
              (by omega) hwin.2 i hi1 hi2)
          exact bswg_finish xs key hk _ (by omega) (by omega) r3 r4
        · rw [if_neg hwin]
          obtain ⟨r1, r2, r3, r4⟩ := bswgBisect_spec (xs.map RVal.fin) key
            xs.length (by simp) (rle_prefix_closed xs key hk hs)
            (xs.length - (g + 2)) (g + 2) xs.length
            (le_refl _) (by omega) (le_refl _)
            (fun i hi => hpreb i hi)
            (fun i hi1 hi2 => absurd hi2 (by omega))
          exact bswg_finish xs key hk _ (by omega) r2 r3 r4

/-- On the long path, `binary_search_with_guess` is the probe phase at
the clamped guess. -/
theorem bswg_eq_probe (key : RVal) (arr : List RVal) (length : ℕ)
    (guess : ℤ)
    (h1 : rlt (aget arr (length - 1)) key = false)
    (h2 : rlt key (aget arr 0) = false) (h4 : ¬ length ≤ 4) :
    binary_search_with_guess key arr length guess =
      bswg_probe key arr length
        (if (if (length : ℤ) - 3 < guess then (length : ℤ) - 3 else guess) < 1
         then 1
         else (if (length : ℤ) - 3 < guess then (length : ℤ) - 3
               else guess)).toNat := by
  unfold binary_search_with_guess
  rw [h1, h2]
  simp [h4]

/-- Full behaviour of `binary_search_with_guess` over a strictly sorted
finite array, for every guess: the two early exits, and otherwise the
greatest-index bracket. -/
theorem bswg_spec (xs : List ℚ) (key : RVal) (hk : key.isnan = false)
    (hs : List.Pairwise (· < ·) xs) (h2 : 2 ≤ xs.length) (guess : ℤ) :
    (rlt (aget (xs.map RVal.fin) (xs.length - 1)) key = true →
      binary_search_with_guess key (xs.map RVal.fin) xs.length guess
        = (xs.length : ℤ)) ∧
    (rlt key (aget (xs.map RVal.fin) 0) = true →
      binary_search_with_guess key (xs.map RVal.fin) xs.length guess = -1) ∧
    (rlt (aget (xs.map RVal.fin) (xs.length - 1)) key = false →
      rlt key (aget (xs.map RVal.fin) 0) = false →
      0 ≤ binary_search_with_guess key (xs.map RVal.fin) xs.length guess ∧
      binary_search_with_guess key (xs.map RVal.fin) xs.length guess
        ≤ (xs.length : ℤ) - 1 ∧
      rle (aget (xs.map RVal.fin)
        (binary_search_with_guess key (xs.map RVal.fin) xs.length
          guess).toNat) key = true ∧
      (binary_search_with_guess key (xs.map RVal.fin) xs.length guess
          = (xs.length : ℤ) - 1 ∨
        rlt key (aget (xs.map RVal.fin)
          ((binary_search_with_guess key (xs.map RVal.fin) xs.length
            guess).toNat + 1)) = true)) := by
  refine ⟨?_, ?_, ?_⟩
  · intro hup
    unfold binary_search_with_guess
    rw [hup]
    rw [if_pos rfl]
  · intro hlo
    have hup : rlt (aget (xs.map RVal.fin) (xs.length - 1)) key = false := by
      cases hf : rlt (aget (xs.map RVal.fin) (xs.length - 1)) key with
      | false => rfl
      | true =>
        exfalso
        rw [rlt_eq_decide_lt hk] at hf
        rw [rlt_eq_decide_lt (arr_isnan_false xs (by omega))] at hlo
        simp only [decide_eq_true_eq] at hf hlo
        exact absurd (lt_trans hf (lt_of_lt_of_le hlo
          (arr_aget_le xs hs (Nat.zero_le _) (by omega)))) (lt_irrefl _)
    unfold binary_search_with_guess
    rw [hup, hlo]
    rw [if_neg (by simp), if_pos rfl]
  · intro hup hlo
    have h0key : rle (aget (xs.map RVal.fin) 0) key = true :=
      rle_of_not_rlt xs key hk (by omega) hlo
    by_cases h4 : xs.length ≤ 4
    · have heq : binary_search_with_guess key (xs.map RVal.fin) xs.length
          guess =
          ((bswgLinear (xs.map RVal.fin) key xs.length (xs.length - 1) 1
            : ℕ) : ℤ) - 1 := by
        unfold binary_search_with_guess
        rw [hup, hlo]
        rw [if_neg (by simp), if_neg (by simp), if_pos h4]
      rw [heq]
      obtain ⟨r1, r2, r3, r4⟩ := bswgLinear_spec (xs.map RVal.fin) key
        xs.length (xs.length - 1) 1 (le_refl _) (by omega) (by omega)
        (fun t ht1 ht2 => absurd (lt_of_le_of_lt ht1 ht2) (lt_irrefl _))
      refine bswg_finish xs key hk _ r1 r2 ?_ ?_
      · intro i hi
        rcases Nat.eq_zero_or_pos i with rfl | hpos
        · exact h0key
        · exact r3 i hpos hi
      · intro i hi1 hi2
        have hRn : bswgLinear (xs.map RVal.fin) key xs.length
            (xs.length - 1) 1 < xs.length := by omega
        exact rle_false_of_key_lt xs key hk hs hRn
          (rlt_of_rle_false xs key hk hRn (r4 hRn)) i hi1 hi2
    · rw [bswg_eq_probe key (xs.map RVal.fin) xs.length guess hup hlo h4]
      apply bswg_probe_spec xs key hk hs hup hlo (by omega)
      · split_ifs <;> omega
      · split_ifs <;> omega

/-- On a strictly sorted list, value order reflects index order. -/
theorem index_le_of_getD_le (xs : List ℚ) (hs : List.Pairwise (· < ·) xs)
    {a b : ℕ} (ha : a < xs.length) (hb : b < xs.length)
    (h : xs.getD a 0 ≤ xs.getD b 0) : a ≤ b := by
  by_contra hcon
  have hba : b < a := by omega
  have := List.pairwise_iff_getElem.mp hs b a hb ha hba
  rw [← List.getD_eq_getElem xs 0 hb, ← List.getD_eq_getElem xs 0 ha] at this
  exact absurd (lt_of_le_of_lt h this) (lt_irrefl _)

/-- Searching for the exact sample value `xs[k]` lands on index `k`,
whatever the guess. -/
theorem bswg_at_sample (xs : List ℚ) (hs : List.Pairwise (· < ·) xs)
    (h2 : 2 ≤ xs.length) (k : ℕ) (hkn : k < xs.length) (guess : ℤ) :
    binary_search_with_guess (RVal.fin (xs.getD k 0)) (xs.map RVal.fin)
      xs.length guess = (k : ℤ) := by
  have hknan : (RVal.fin (xs.getD k 0)).isnan = false := rfl
  have hup : rlt (aget (xs.map RVal.fin) (xs.length - 1))
      (RVal.fin (xs.getD k 0)) = false := by
    rw [aget_map_fin xs (by omega)]
    show decide (xs.getD (xs.length - 1) 0 < xs.getD k 0) = false
    simp only [decide_eq_false_iff_not, not_lt]
    have := arr_aget_le xs hs (show k ≤ xs.length - 1 from by omega) (by omega)
    rw [aget_map_fin xs hkn, aget_map_fin xs (by omega)] at this
    exact RVal.fin_le_fin.mp this
  have hlo : rlt (RVal.fin (xs.getD k 0)) (aget (xs.map RVal.fin) 0)
      = false := by
    rw [aget_map_fin xs (by omega)]
    show decide (xs.getD k 0 < xs.getD 0 0) = false
    simp only [decide_eq_false_iff_not, not_lt]
    have := arr_aget_le xs hs (Nat.zero_le k) hkn
    rw [aget_map_fin xs (by omega), aget_map_fin xs hkn] at this
    exact RVal.fin_le_fin.mp this
  obtain ⟨r1, r2, r3, r4⟩ :=
    (bswg_spec xs (RVal.fin (xs.getD k 0)) hknan hs h2 guess).2.2 hup hlo
  have hJn : (binary_search_with_guess (RVal.fin (xs.getD k 0))
      (xs.map RVal.fin) xs.length guess).toNat < xs.length := by omega
  have hJk : (binary_search_with_guess (RVal.fin (xs.getD k 0))
      (xs.map RVal.fin) xs.length guess).toNat ≤ k := by
    rw [aget_map_fin xs hJn] at r3
    have hle : xs.getD (binary_search_with_guess (RVal.fin (xs.getD k 0))
        (xs.map RVal.fin) xs.length guess).toNat 0 ≤ xs.getD k 0 := by
      have := r3
      rw [show rle (RVal.fin (xs.getD (binary_search_with_guess
          (RVal.fin (xs.getD k 0)) (xs.map RVal.fin) xs.length
          guess).toNat 0)) (RVal.fin (xs.getD k 0)) =
          decide (xs.getD (binary_search_with_guess (RVal.fin (xs.getD k 0))
          (xs.map RVal.fin) xs.length guess).toNat 0 ≤ xs.getD k 0)
          from rfl] at this
      simpa using this
    exact index_le_of_getD_le xs hs hJn hkn hle
  have hkJ : k ≤ (binary_search_with_guess (RVal.fin (xs.getD k 0))
      (xs.map RVal.fin) xs.length guess).toNat := by
    by_cases hend : (binary_search_with_guess (RVal.fin (xs.getD k 0))
        (xs.map RVal.fin) xs.length guess).toNat = xs.length - 1
    · omega
    · rcases r4 with hJ | hnext
      · omega
      · have hnn : (binary_search_with_guess (RVal.fin (xs.getD k 0))
            (xs.map RVal.fin) xs.length guess).toNat + 1 < xs.length := by
          omega
        rw [aget_map_fin xs hnn] at hnext
        rw [show rlt (RVal.fin (xs.getD k 0)) (RVal.fin (xs.getD
            ((binary_search_with_guess (RVal.fin (xs.getD k 0))
            (xs.map RVal.fin) xs.length guess).toNat + 1) 0)) =
            decide (xs.getD k 0 < xs.getD ((binary_search_with_guess
            (RVal.fin (xs.getD k 0)) (xs.map RVal.fin) xs.length
            guess).toNat + 1) 0) from rfl] at hnext
        simp only [decide_eq_true_eq] at hnext
        have hle := index_le_of_getD_le xs hs hkn hnn (le_of_lt hnext)
        have hne : k ≠ (binary_search_with_guess (RVal.fin (xs.getD k 0))
            (xs.map RVal.fin) xs.length guess).toNat + 1 := by
          intro he
          rw [← he] at hnext
          exact absurd hnext (lt_irrefl _)
        omega
  omega

theorem interpLoop116_cons_nan (dx dy : List RVal) (lenxp : ℕ)
    (lval rval : RVal) (slopes : List RVal) (xv : RVal) (rest : List RVal)
    (j : ℤ) (h : xv.isnan = true) :
    interpLoop116 dx dy lenxp lval rval slopes (xv :: rest) j =
      xv :: interpLoop116 dx dy lenxp lval rval slopes rest j := by
  cases xv with
  | nan => rfl
  | ninf => exact Bool.noConfusion h
  | pinf => exact Bool.noConfusion h
  | fin q => exact Bool.noConfusion h

theorem interpLoop116_cons_val (dx dy : List RVal) (lenxp : ℕ)
    (lval rval : RVal) (slopes : List RVal) (xv : RVal) (rest : List RVal)
    (j : ℤ) (h : xv.isnan = false) :
    interpLoop116 dx dy lenxp lval rval slopes (xv :: rest) j =
      (if binary_search_with_guess xv dx lenxp j = -1 then lval
       else if binary_search_with_guess xv dx lenxp j = (lenxp : ℤ) then rval
       else if binary_search_with_guess xv dx lenxp j = (lenxp : ℤ) - 1 then
         aget dy (binary_search_with_guess xv dx lenxp j).toNat
       else if req (aget dx (binary_search_with_guess xv dx lenxp j).toNat)
           xv then
         aget dy (binary_search_with_guess xv dx lenxp j).toNat
       else
         radd (rmul
           (if slopes.length ≠ 0 then
             aget slopes (binary_search_with_guess xv dx lenxp j).toNat
            else rdiv
              (rsub (aget dy ((binary_search_with_guess xv dx lenxp
                  j).toNat + 1))
                (aget dy (binary_search_with_guess xv dx lenxp j).toNat))
              (rsub (aget dx ((binary_search_with_guess xv dx lenxp
                  j).toNat + 1))
                (aget dx (binary_search_with_guess xv dx lenxp j).toNat)))
           (rsub xv (aget dx (binary_search_with_guess xv dx lenxp
             j).toNat)))
           (aget dy (binary_search_with_guess xv dx lenxp j).toNat))
      :: interpLoop116 dx dy lenxp lval rval slopes rest
           (binary_search_with_guess xv dx lenxp j) := by
  cases xv with
  | nan => exact Bool.noConfusion h
  | ninf => rfl
  | pinf => rfl
  | fin q => rfl

theorem interpLoop116_length (dx dy : List RVal) (lenxp : ℕ)
    (lval rval : RVal) (slopes : List RVal) :
    ∀ qs (j : ℤ),
      (interpLoop116 dx dy lenxp lval rval slopes qs j).length = qs.length := by
  intro qs
  induction qs with
  | nil => intro j; rfl
  | cons a t ih =>
    intro j
    cases ha : a.isnan with
    | true =>
      rw [interpLoop116_cons_nan dx dy lenxp lval rval slopes a t j ha]
      simp [ih]
    | false =>
      rw [interpLoop116_cons_val dx dy lenxp lval rval slopes a t j ha]
      simp [ih]

theorem rlt_true_isnan_left {a b : RVal} (h : rlt a b = true) :
    a.isnan = false := by
  cases a with
  | nan => cases b <;> exact Bool.noConfusion h
  | ninf => rfl
  | pinf => rfl
  | fin q => rfl

theorem rlt_true_isnan_right {a b : RVal} (h : rlt a b = true) :
    b.isnan = false := by
  cases b with
  | nan => cases a <;> exact Bool.noConfusion h
  | ninf => rfl
  | pinf => rfl
  | fin q => rfl

/-- Pointwise behaviour of the 1.16 query loop, for every starting
guess: NaN queries pass through, queries below the first sample give
`fp[0]`, above the last give `fp.back`, and a query equal to sample `k`
gives exactly `fp[k]`. -/
theorem interpLoop116_pointwise (xs : List ℚ) (fp slopes : List RVal)
    (hs : List.Pairwise (· < ·) xs) (h2 : 2 ≤ xs.length) :
    ∀ (qs : List RVal) (j : ℤ) (i : ℕ), i < qs.length →
      ((aget qs i).isnan = true →
        aget (interpLoop116 (xs.map RVal.fin) fp xs.length (aget fp 0)
          (aget fp (xs.length - 1)) slopes qs j) i = aget qs i) ∧
      (rlt (aget qs i) (RVal.fin (xs.getD 0 0)) = true →
        aget (interpLoop116 (xs.map RVal.fin) fp xs.length (aget fp 0)
          (aget fp (xs.length - 1)) slopes qs j) i = aget fp 0) ∧
      (rlt (RVal.fin (xs.getD (xs.length - 1) 0)) (aget qs i) = true →
        aget (interpLoop116 (xs.map RVal.fin) fp xs.length (aget fp 0)
          (aget fp (xs.length - 1)) slopes qs j) i
          = aget fp (xs.length - 1)) ∧
      (∀ k, k < xs.length → aget qs i = RVal.fin (xs.getD k 0) →
        aget (interpLoop116 (xs.map RVal.fin) fp xs.length (aget fp 0)
          (aget fp (xs.length - 1)) slopes qs j) i = aget fp k) := by
  have hhead : ∀ (l : List RVal) (a : RVal), aget (a :: l) 0 = a := by
    intro l a
    simp [aget]
  have htail : ∀ (l : List RVal) (a : RVal) (m : ℕ),
      aget (a :: l) (m + 1) = aget l m := by
    intro l a m
    simp [aget]
  intro qs
  induction qs with
  | nil =>
    intro j i hi
    exact absurd hi (by simp)
  | cons xv rest ih =>
    intro j i hi
    cases hnan : xv.isnan with
    | true =>
      rw [interpLoop116_cons_nan _ _ _ _ _ _ _ _ _ hnan]
      cases i with
      | zero =>
        simp only [hhead]
        refine ⟨fun _ => trivial, ?_, ?_, ?_⟩
        · intro hlt
          exact absurd (rlt_true_isnan_left hlt) (by simp [hnan])
        · intro hlt
          exact absurd (rlt_true_isnan_right hlt) (by simp [hnan])
        · intro k hk heq
          rw [heq] at hnan
          exact Bool.noConfusion hnan
      | succ m =>
        simp only [htail]
        exact ih j m (by simp only [List.length_cons] at hi; omega)
    | false =>
      rw [interpLoop116_cons_val _ _ _ _ _ _ _ _ _ hnan]
      cases i with
      | succ m =>
        simp only [htail]
        exact ih _ m (by simp only [List.length_cons] at hi; omega)
      | zero =>
        simp only [hhead]
        refine ⟨fun hn => absurd hn (by simp [hnan]), ?_, ?_, ?_⟩
        · intro hlt
          have hlo : rlt xv (aget (xs.map RVal.fin) 0) = true := by
            rw [aget_map_fin xs (by omega)]
            exact hlt
          rw [(bswg_spec xs xv hnan hs h2 j).2.1 hlo, if_pos rfl]
        · intro hlt
          have hup : rlt (aget (xs.map RVal.fin) (xs.length - 1)) xv
              = true := by
            rw [aget_map_fin xs (by omega)]
            exact hlt
          rw [(bswg_spec xs xv hnan hs h2 j).1 hup, if_neg (by omega),
            if_pos rfl]
        · intro k hk heq
          rw [heq, bswg_at_sample xs hs h2 k hk j, if_neg (by omega),
            if_neg (by omega), Int.toNat_natCast]
          by_cases hkend : k = xs.length - 1
          · rw [if_pos (by omega)]
          · rw [if_neg (by omega), aget_map_fin xs hk,
              if_pos (by simp [req])]

/-- C4: for 1-D interpolation (the numpy >= 1.16 kernel
`np_interp_impl_inner_116`) over at least two strictly increasing sample
points `xp` with values `fp` of matching length, the computation
succeeds, produces one output per query, and per query: a NaN query
yields NaN directly (the query value itself); a query below `xp[0]`
yields `fp[0]`; a query above `xp[len-1]` yields `fp[len-1]`; and a
query exactly equal to a sample `xp[k]` yields exactly `fp[k]`, never an
interpolated value. -/
theorem np_interp_116_spec (xs : List ℚ) (fp x : List RVal)
    (hs : List.Pairwise (· < ·) xs) (hlen : fp.length = xs.length)
    (h2 : 2 ≤ xs.length) :
    ∃ r, np_interp_impl_inner_116 x (xs.map RVal.fin) fp = .ok r ∧
      r.length = x.length ∧
      ∀ i, i < x.length →
        ((aget x i).isnan = true → aget r i = aget x i) ∧
        (rlt (aget x i) (RVal.fin (xs.getD 0 0)) = true →
          aget r i = aget fp 0) ∧
        (rlt (RVal.fin (xs.getD (xs.length - 1) 0)) (aget x i) = true →
          aget r i = aget fp (xs.length - 1)) ∧
        (∀ k, k < xs.length → aget x i = RVal.fin (xs.getD k 0) →
          aget r i = aget fp k) := by
  refine ⟨interpLoop116 (xs.map RVal.fin) fp xs.length (aget fp 0)
    (aget fp (xs.length - 1)) (interpSlopes (xs.map RVal.fin) fp x.length)
    x 0, ?_, ?_, ?_⟩
  · unfold np_interp_impl_inner_116
    simp only [List.length_map]
    rw [if_neg (by omega), if_neg (by omega), if_neg (by omega)]
  · exact interpLoop116_length _ _ _ _ _ _ x 0
  · intro i hi
    exact interpLoop116_pointwise xs fp _ hs h2 x 0 i hi

/-- The interp edge policy checked at concrete inputs: samples (0, 10)
and (1, 20), queries NaN, -1 (below), 2 (above), 1 (exact sample). -/
theorem np_interp_116_spec_witness :
    (List.Pairwise (· < ·) ([0, 1] : List ℚ) ∧
      ([RVal.fin 10, RVal.fin 20] : List RVal).length
        = ([0, 1] : List ℚ).length ∧
      2 ≤ ([0, 1] : List ℚ).length) ∧
    (∃ r, np_interp_impl_inner_116
        [RVal.nan, RVal.fin (-1), RVal.fin 2, RVal.fin 1]
        (([0, 1] : List ℚ).map RVal.fin) [RVal.fin 10, RVal.fin 20]
        = .ok r ∧
      r.length = ([RVal.nan, RVal.fin (-1), RVal.fin 2,
        RVal.fin 1] : List RVal).length ∧
      ∀ i, i < ([RVal.nan, RVal.fin (-1), RVal.fin 2,
          RVal.fin 1] : List RVal).length →
        ((aget [RVal.nan, RVal.fin (-1), RVal.fin 2, RVal.fin 1] i).isnan
            = true →
          aget r i = aget [RVal.nan, RVal.fin (-1), RVal.fin 2,
            RVal.fin 1] i) ∧
        (rlt (aget [RVal.nan, RVal.fin (-1), RVal.fin 2, RVal.fin 1] i)
            (RVal.fin (([0, 1] : List ℚ).getD 0 0)) = true →
          aget r i = aget [RVal.fin 10, RVal.fin 20] 0) ∧
        (rlt (RVal.fin (([0, 1] : List ℚ).getD
            (([0, 1] : List ℚ).length - 1) 0))
            (aget [RVal.nan, RVal.fin (-1), RVal.fin 2, RVal.fin 1] i)
            = true →
          aget r i = aget [RVal.fin 10, RVal.fin 20]
            (([0, 1] : List ℚ).length - 1)) ∧
        (∀ k, k < ([0, 1] : List ℚ).length →
          aget [RVal.nan, RVal.fin (-1), RVal.fin 2, RVal.fin 1] i
            = RVal.fin (([0, 1] : List ℚ).getD k 0) →
          aget r i = aget [RVal.fin 10, RVal.fin 20] k)) :=
  ⟨⟨by norm_num [List.pairwise_cons], rfl, by decide⟩,
    np_interp_116_spec [0, 1] [RVal.fin 10, RVal.fin 20]
      [RVal.nan, RVal.fin (-1), RVal.fin 2, RVal.fin 1]
      (by norm_num [List.pairwise_cons]) rfl (by decide)⟩

end BswgSpec

section QuickselectSpec

theorem segx_all (A : List α) : segx A 0 A.length = A := by
  apply List.ext_getElem
  · simp
  · intro t h1 h2
    rw [← List.getD_eq_getElem _ default h1, ← List.getD_eq_getElem _ default h2]
    rw [segx_getD _ _ _ _ (by simpa using h1)]
    simp [aget]

/-- The forward scan stops at the first index at or after `i` (and
before `high`) whose element does not compare below the pivot. -/
theorem scanIF_spec (lt : α → α → Bool) (A : List α) (p : α) (high : ℕ) :
    ∀ fuel i, i ≤ high → high - i ≤ fuel →
      i ≤ scanIF lt A p high fuel i ∧
      scanIF lt A p high fuel i ≤ high ∧
      (∀ t, i ≤ t → t < scanIF lt A p high fuel i →
        lt (aget A t) p = true) ∧
      (scanIF lt A p high fuel i < high →
        lt (aget A (scanIF lt A p high fuel i)) p = false) := by
  intro fuel
  induction fuel with
  | zero =>
    intro i hih hfuel
    have : i = high := by omega
    subst this
    exact ⟨le_refl _, le_refl _, fun t ht1 ht2 => absurd (lt_of_le_of_lt ht1 ht2)
      (lt_irrefl _), fun h => absurd h (lt_irrefl _)⟩
  | succ fuel ih =>
    intro i hih hfuel
    unfold scanIF
    by_cases hc : i < high
    · cases hf : lt (aget A i) p with
      | true =>
        rw [if_pos (by simp [hc, hf])]
        obtain ⟨r1, r2, r3, r4⟩ := ih (i+1) (by omega) (by omega)
        refine ⟨by omega, r2, ?_, r4⟩
        intro t ht1 ht2
        rcases Nat.lt_or_ge t (i+1) with h | h
        · have : t = i := by omega
          subst this
          exact hf
        · exact r3 t h ht2
      | false =>
        rw [if_neg (by simp [hf])]
        exact ⟨le_refl _, by omega, fun t ht1 ht2 => absurd (lt_of_le_of_lt ht1
          ht2) (lt_irrefl _), fun _ => hf⟩
    · rw [if_neg (by simp [hc])]
      have : i = high := by omega
      subst this
      exact ⟨le_refl _, le_refl _, fun t ht1 ht2 => absurd (lt_of_le_of_lt ht1
        ht2) (lt_irrefl _), fun h => absurd h (lt_irrefl _)⟩

/-- The forward scan of `_partition` (`scanI`). -/
theorem scanI_spec (lt : α → α → Bool) (A : List α) (p : α) (high i : ℕ)
    (hih : i ≤ high) :
    i ≤ scanI lt A p high i ∧
    scanI lt A p high i ≤ high ∧
    (∀ t, i ≤ t → t < scanI lt A p high i → lt (aget A t) p = true) ∧
    (scanI lt A p high i < high →
      lt (aget A (scanI lt A p high i)) p = false) :=
  scanIF_spec lt A p high (high - i) i hih (le_refl _)

/-- The backward scan stops at the first index at or below `j` (and at
or above `low`) whose element the pivot does not compare below. -/
theorem scanJF_spec (lt : α → α → Bool) (A : List α) (p : α) (low : ℕ) :
    ∀ fuel (j : ℤ), (low : ℤ) - 1 ≤ j → (j + 1 - low).toNat ≤ fuel →
      scanJF lt A p low fuel j ≤ j ∧
      (low : ℤ) - 1 ≤ scanJF lt A p low fuel j ∧
      (∀ t : ℤ, scanJF lt A p low fuel j < t → t ≤ j →
        lt p (aget A t.toNat) = true) ∧
      ((low : ℤ) ≤ scanJF lt A p low fuel j →
        lt p (aget A (scanJF lt A p low fuel j).toNat) = false) := by
  intro fuel
  induction fuel with
  | zero =>
    intro j hj hfuel
    have : j = (low : ℤ) - 1 := by omega
    subst this
    refine ⟨le_refl _, le_refl _, fun t ht1 ht2 => absurd (lt_of_lt_of_le ht1
      ht2) (lt_irrefl _), fun h => ?_⟩
    rw [show scanJF lt A p low 0 ((low : ℤ) - 1) = (low : ℤ) - 1 from rfl] at h
    omega
  | succ fuel ih =>
    intro j hj hfuel
    unfold scanJF
    by_cases hc : (low : ℤ) ≤ j
    · cases hf : lt p (aget A j.toNat) with
      | true =>
        rw [if_pos (by simp [hc, hf])]
        obtain ⟨r1, r2, r3, r4⟩ := ih (j-1) (by omega) (by omega)
        refine ⟨by omega, r2, ?_, r4⟩
        intro t ht1 ht2
        rcases lt_or_le t j with h | h
        · exact r3 t ht1 (by omega)
        · have : t = j := by omega
          subst this
          exact hf
      | false =>
        rw [if_neg (by simp [hf])]
        exact ⟨le_refl _, hj, fun t ht1 ht2 => absurd (lt_of_lt_of_le ht1 ht2)
          (lt_irrefl _), fun _ => hf⟩
    · rw [if_neg (by simp [hc])]
      exact ⟨le_refl _, hj, fun t ht1 ht2 => absurd (lt_of_lt_of_le ht1 ht2)
        (lt_irrefl _), fun h => absurd h hc⟩

/-- The backward scan of `_partition` (`scanJ`). -/
theorem scanJ_spec (lt : α → α → Bool) (A : List α) (p : α) (low : ℕ)
    (j : ℤ) (hj : (low : ℤ) - 1 ≤ j) :
    scanJ lt A p low j ≤ j ∧
    (low : ℤ) - 1 ≤ scanJ lt A p low j ∧
    (∀ t : ℤ, scanJ lt A p low j < t → t ≤ j →
      lt p (aget A t.toNat) = true) ∧
    ((low : ℤ) ≤ scanJ lt A p low j →
      lt p (aget A (scanJ lt A p low j).toNat) = false) :=
  scanJF_spec lt A p low (j + 1 - low).toNat j hj (le_refl _)

theorem lt_of_less_than_true {a b : ℚ} (h : less_than a b = true) : a < b := by
  simpa [less_than] using h

theorem le_of_less_than_false {a b : ℚ} (h : less_than a b = false) : b ≤ a := by
  simp only [less_than, decide_eq_false_iff_not] at h
  exact not_lt.mp h

theorem less_than_false_of_le {a b : ℚ} (h : b ≤ a) : less_than a b = false := by
  simp [less_than, not_lt.mpr h]

theorem less_than_false_of_lt {a b : ℚ} (h : a < b) : less_than b a = false :=
  less_than_false_of_le (le_of_lt h)

/-- Invariant of the Hoare swap loop of `_partition` at the exact total
order: elements left of `i` stay at or below the pivot, elements right
of `j` stay at or above it, the pivot stays pinned at `high`, and the
window is only permuted. -/
theorem partitionLoop_spec (p : ℚ) (low high n : ℕ) (hlh : low ≤ high)
    (hhn : high < n) :
    ∀ (fuel : ℕ) (A : List ℚ) (i : ℕ) (j : ℤ), A.length = n →
      low ≤ i → i ≤ high → (low : ℤ) - 1 ≤ j → j ≤ (high : ℤ) - 1 →
      (j - (i : ℤ)).toNat + 1 ≤ fuel →
      aget A high = p →
      (∀ t, low ≤ t → t < i → less_than p (aget A t) = false) →
      (∀ t : ℤ, j < t → t ≤ (high : ℤ) - 1 →
        less_than (aget A t.toNat) p = false) →
      (partitionLoopF less_than p low high fuel A i j).1.length = n ∧
      low ≤ (partitionLoopF less_than p low high fuel A i j).2 ∧
      (partitionLoopF less_than p low high fuel A i j).2 ≤ high ∧
      aget (partitionLoopF less_than p low high fuel A i j).1 high = p ∧
      (∀ t, t < low ∨ high < t →
        aget (partitionLoopF less_than p low high fuel A i j).1 t
          = aget A t) ∧
      List.Perm
        (segx (partitionLoopF less_than p low high fuel A i j).1 low (high+1))
        (segx A low (high+1)) ∧
      (∀ t, low ≤ t → t < (partitionLoopF less_than p low high fuel A i j).2 →
        less_than p
          (aget (partitionLoopF less_than p low high fuel A i j).1 t)
          = false) ∧
      (∀ t, (partitionLoopF less_than p low high fuel A i j).2 ≤ t →
        t + 1 ≤ high →
        less_than (aget (partitionLoopF less_than p low high fuel A i j).1 t)
          p = false) := by
  intro fuel
  induction fuel with
  | zero =>
    intro A i j hA hli hih hlj hjh hfuel hpin hpre hsuf
    omega
  | succ fuel ih =>
    intro A i j hA hli hih hlj hjh hfuel hpin hpre hsuf
    obtain ⟨i1, i2b, i3, i4⟩ := scanI_spec less_than A p high i hih
    obtain ⟨j1, j2b, j3, j4⟩ := scanJ_spec less_than A p low j hlj
    simp only [partitionLoopF]
    by_cases hc : scanJ less_than A p low j ≤ (scanI less_than A p high i : ℤ)
    · rw [if_pos hc]
      refine ⟨hA, le_trans hli i1, i2b, hpin, fun t _ => rfl,
        List.Perm.refl _, ?_, ?_⟩
      · intro t ht1 ht2
        rcases Nat.lt_or_ge t i with h | h
        · exact hpre t ht1 h
        · exact less_than_false_of_lt (lt_of_less_than_true (i3 t h ht2))
      · intro t ht1 ht2
        rcases lt_or_le (scanJ less_than A p low j) (t : ℤ) with h | h
        · rcases le_or_lt (t : ℤ) j with h' | h'
          · have := j3 (t : ℤ) h h'
            rw [Int.toNat_natCast] at this
            exact less_than_false_of_lt (lt_of_less_than_true this)
          · have := hsuf (t : ℤ) h' (by omega)
            rwa [Int.toNat_natCast] at this
        · have hts : (t : ℤ) = scanI less_than A p high i := by omega
          have htn : t = scanI less_than A p high i := by omega
          rw [htn]
          exact i4 (by omega)
    · rw [if_neg hc]
      push_neg at hc
      have hj2nn : (0 : ℤ) ≤ scanJ less_than A p low j := by omega
      have hswapi : scanI less_than A p high i < n := by omega
      have hswapj : (scanJ less_than A p low j).toNat < n := by omega
      have hij : scanI less_than A p high i
          < (scanJ less_than A p low j).toNat := by omega
      obtain ⟨r1, r2, r3, r4, r5, r6, r7, r8⟩ := ih
        (aswap A (scanI less_than A p high i)
          (scanJ less_than A p low j).toNat)
        (scanI less_than A p high i + 1) (scanJ less_than A p low j - 1)
        (by rw [length_aswap]; exact hA)
        (by omega) (by omega) (by omega) (by omega) (by omega)
        (by
          rw [aget_aswap_other A (by omega) (by omega)]
          exact hpin)
        (by
          intro t ht1 ht2
          rcases Nat.lt_or_ge t (scanI less_than A p high i) with h | h
          · rw [aget_aswap_other A (by omega) (by omega)]
            rcases Nat.lt_or_ge t i with h' | h'
            · exact hpre t ht1 h'
            · exact less_than_false_of_lt (lt_of_less_than_true (i3 t h' h))
          · have : t = scanI less_than A p high i := by omega
            rw [this, aget_aswap_left (by omega) (by omega)]
            exact j4 (by omega))
        (by
          intro t ht1 ht2
          rcases eq_or_lt_of_le (show scanJ less_than A p low j ≤ t
            from by omega) with h | h
          · rw [← h, aget_aswap_right (by omega)]
            exact i4 (by omega)
          · have htnat : t.toNat ≠ scanI less_than A p high i := by omega
            have htnat2 : t.toNat ≠ (scanJ less_than A p low j).toNat := by
              omega
            rw [aget_aswap_other A htnat htnat2]
            rcases le_or_lt t j with h' | h'
            · exact less_than_false_of_lt (lt_of_less_than_true (j3 t h h'))
            · exact hsuf t h' ht2)
      refine ⟨r1, r2, r3, r4, ?_, ?_, r7, r8⟩
      · intro t ht
        rw [r5 t ht, aget_aswap_other A (by omega) (by omega)]
      · exact r6.trans (segx_aswap_perm A (by omega) (by omega) (by omega)
          (by omega) (by omega))

/-- `_partition(A, low, high)`: the returned index holds the pivot, the
window `[low, high]` is a permutation of the input window, everything
outside is untouched, and the window is partitioned around the pivot: at
or below it before its index, at or above it from its index on. -/
theorem partition_spec (A : List ℚ) (low high : ℕ) (hlh : low ≤ high)
    (hhn : high < A.length) :
    (_partition A low high).1.length = A.length ∧
    low ≤ (_partition A low high).2 ∧
    (_partition A low high).2 ≤ high ∧
    (∀ t, t < low ∨ high < t → aget (_partition A low high).1 t = aget A t) ∧
    List.Perm (segx (_partition A low high).1 low (high+1))
      (segx A low (high+1)) ∧
    (∀ t, low ≤ t → t < (_partition A low high).2 →
      aget (_partition A low high).1 t
        ≤ aget (_partition A low high).1 (_partition A low high).2) ∧
    (∀ t, (_partition A low high).2 ≤ t → t ≤ high →
      aget (_partition A low high).1 (_partition A low high).2
        ≤ aget (_partition A low high).1 t) := by
  simp only [_partition, _partition_factory]
  set mid := (low + high) >>> 1 with hmiddef
  have hmid1 : low ≤ mid := by
    rw [hmiddef, Nat.shiftRight_one]
    omega
  have hmid2 : mid ≤ high := by
    rw [hmiddef, Nat.shiftRight_one]
    omega
  set A1 := if less_than (aget A mid) (aget A low) then aswap A low mid else A
    with hA1def
  have hA1len : A1.length = A.length := by
    rw [hA1def]
    split_ifs <;> simp
  have hA1perm : List.Perm (segx A1 low (high+1)) (segx A low (high+1)) := by
    rw [hA1def]
    split_ifs
    · exact segx_aswap_perm A (le_refl _) (by omega) hmid1 (by omega) (by omega)
    · exact List.Perm.refl _
  have hA1frame : ∀ t, t < low ∨ high < t → aget A1 t = aget A t := by
    intro t ht
    rw [hA1def]
    split_ifs
    · exact aget_aswap_other A (by omega) (by omega)
    · rfl
  set A2 := if less_than (aget A1 high) (aget A1 mid) then aswap A1 high mid
    else A1 with hA2def
  have hA2len : A2.length = A.length := by
    rw [hA2def]
    split_ifs <;> simp [hA1len]
  have hA2perm : List.Perm (segx A2 low (high+1)) (segx A1 low (high+1)) := by
    rw [hA2def]
    split_ifs
    · exact segx_aswap_perm A1 (by omega) (by omega) hmid1 (by omega)
        (by omega)
    · exact List.Perm.refl _
  have hA2frame : ∀ t, t < low ∨ high < t → aget A2 t = aget A1 t := by
    intro t ht
    rw [hA2def]
    split_ifs
    · exact aget_aswap_other A1 (by omega) (by omega)
    · rfl
  set A3 := if less_than (aget A2 mid) (aget A2 low) then aswap A2 low mid
    else A2 with hA3def
  have hA3len : A3.length = A.length := by
    rw [hA3def]
    split_ifs <;> simp [hA2len]
  have hA3perm : List.Perm (segx A3 low (high+1)) (segx A2 low (high+1)) := by
    rw [hA3def]
    split_ifs
    · exact segx_aswap_perm A2 (le_refl _) (by omega) hmid1 (by omega)
        (by omega)
    · exact List.Perm.refl _
  have hA3frame : ∀ t, t < low ∨ high < t → aget A3 t = aget A2 t := by
    intro t ht
    rw [hA3def]
    split_ifs
    · exact aget_aswap_other A2 (by omega) (by omega)
    · rfl
  set pivot := aget A3 mid with hpivotdef
  set A4 := aswap A3 high mid with hA4def
  have hA4len : A4.length = A.length := by
    rw [hA4def]
    simp [hA3len]
  have hA4perm : List.Perm (segx A4 low (high+1)) (segx A3 low (high+1)) := by
    rw [hA4def]
    exact segx_aswap_perm A3 (by omega) (by omega) hmid1 (by omega) (by omega)
  have hA4frame : ∀ t, t < low ∨ high < t → aget A4 t = aget A3 t := by
    intro t ht
    rw [hA4def]
    exact aget_aswap_other A3 (by omega) (by omega)
  have hA4pin : aget A4 high = pivot := by
    rw [hA4def, hpivotdef]
    exact aget_aswap_left (by omega) (by omega)
  obtain ⟨r1, r2, r3, r4, r5, r6, r7, r8⟩ := partitionLoop_spec pivot low high
    A.length hlh hhn ((((high : ℤ) - 1) + 1 - low).toNat + 1) A4 low
    ((high : ℤ) - 1) hA4len (le_refl _) hlh (by omega) (le_refl _) (by omega)
    hA4pin (fun t ht1 ht2 => absurd (lt_of_le_of_lt ht1 ht2) (lt_irrefl _))
    (fun t ht1 ht2 => absurd (lt_of_lt_of_le ht1 ht2) (lt_irrefl _))
  set r := partitionLoopF less_than pivot low high
    ((((high : ℤ) - 1) + 1 - low).toNat + 1) A4 low ((high : ℤ) - 1)
    with hrdef
  have hr2n : r.2 < A.length := by omega
  have hr1len : r.1.length = A.length := r1
  have hpivotat : aget (aswap r.1 r.2 high) r.2 = pivot := by
    rw [aget_aswap_left (by omega) (by omega)]
    exact r4
  refine ⟨by simp [hr1len], r2, r3, ?_, ?_, ?_, ?_⟩
  · intro t ht
    rw [aget_aswap_other r.1 (by omega) (by omega), r5 t ht, hA4frame t ht,
      hA3frame t ht, hA2frame t ht, hA1frame t ht]
  · exact ((((segx_aswap_perm r.1 r2 (by omega) hlh (by omega)
      (by omega)).trans r6).trans hA4perm).trans hA3perm).trans
      (hA2perm.trans hA1perm)
  · intro t ht1 ht2
    rw [hpivotat, aget_aswap_other r.1 (by omega) (by omega)]
    exact le_of_less_than_false (r7 t ht1 ht2)
  · intro t ht1 ht2
    rw [hpivotat]
    rcases eq_or_lt_of_le ht1 with h | h
    · rw [← h, hpivotat]
    · rcases eq_or_lt_of_le ht2 with h' | h'
      · rw [h', aget_aswap_right (by omega)]
        exact le_of_less_than_false (r8 r.2 (le_refl _) (by omega))
      · rw [aget_aswap_other r.1 (by omega) (by omega)]
        exact le_of_less_than_false (r8 t ht1 (by omega))

/-- Sorting is permutation-invariant. -/
theorem insertionSort_eq_of_perm {X Y : List ℚ} (h : List.Perm X Y) :
    List.insertionSort (· ≤ ·) X = List.insertionSort (· ≤ ·) Y :=
  List.eq_of_perm_of_sorted
    ((List.perm_insertionSort _ X).trans (h.trans
      (List.perm_insertionSort _ Y).symm))
    (List.sorted_insertionSort _ X) (List.sorted_insertionSort _ Y)

/-- Sorting a list split by a sandwiching pivot splits into the sorted
halves around the pivot. -/
theorem sorted_decomposition (L R : List ℚ) (p : ℚ)
    (hL : ∀ x ∈ L, x ≤ p) (hR : ∀ x ∈ R, p ≤ x) :
    List.insertionSort (· ≤ ·) (L ++ p :: R) =
      List.insertionSort (· ≤ ·) L ++ p :: List.insertionSort (· ≤ ·) R := by
  have hsorted : List.Sorted (· ≤ ·) (List.insertionSort (· ≤ ·) L ++ p ::
      List.insertionSort (· ≤ ·) R) := by
    refine List.pairwise_append.mpr ⟨List.sorted_insertionSort _ _, ?_, ?_⟩
    · refine List.pairwise_cons.mpr ⟨?_, List.sorted_insertionSort _ _⟩
      intro b hb
      exact hR b ((List.perm_insertionSort (· ≤ ·) R).mem_iff.mp hb)
    · intro x hx y hy
      have hxp : x ≤ p :=
        hL x ((List.perm_insertionSort (· ≤ ·) L).mem_iff.mp hx)
      rcases List.mem_cons.mp hy with rfl | hy'
      · exact hxp
      · exact le_trans hxp (hR y
          ((List.perm_insertionSort (· ≤ ·) R).mem_iff.mp hy'))
  exact List.eq_of_perm_of_sorted
    ((List.perm_insertionSort _ _).trans
      (((List.perm_insertionSort (· ≤ ·) L).symm.append
        ((List.perm_insertionSort (· ≤ ·) R).symm.cons p))))
    (List.sorted_insertionSort _ _) hsorted

/-- Every element of a segment is an `aget` at an in-window index. -/
theorem mem_segx (A : List ℚ) (a b : ℕ) {x : ℚ} (h : x ∈ segx A a b) :
    ∃ t, a ≤ t ∧ t < b ∧ x = aget A t := by
  rw [segx, List.mem_map] at h
  obtain ⟨u, hu, hx⟩ := h
  rw [List.mem_range] at hu
  exact ⟨a + u, Nat.le_add_right a u, by omega, hx.symm⟩

/-- After a partition step, the sorted window decomposes around the
pivot position. -/
theorem sort_seg_partition (C : List ℚ) (low i high : ℕ)
    (hli : low ≤ i) (hih : i ≤ high)
    (hpre : ∀ t, low ≤ t → t < i → aget C t ≤ aget C i)
    (hsuf : ∀ t, i ≤ t → t ≤ high → aget C i ≤ aget C t) :
    List.insertionSort (· ≤ ·) (segx C low (high+1)) =
      List.insertionSort (· ≤ ·) (segx C low i) ++ aget C i ::
        List.insertionSort (· ≤ ·) (segx C (i+1) (high+1)) := by
  have hsplit : segx C low (high+1)
      = segx C low i ++ aget C i :: segx C (i+1) (high+1) := by
    rw [segx_append C hli (by omega), segx_append C (show i ≤ i+1 from by
      omega) (by omega), segx_singleton]
    simp
  rw [hsplit]
  apply sorted_decomposition
  · intro x hx
    obtain ⟨t, ht1, ht2, rfl⟩ := mem_segx C low i hx
    exact hpre t ht1 ht2
  · intro x hx
    obtain ⟨t, ht1, ht2, rfl⟩ := mem_segx C (i+1) (high+1) hx
    exact hsuf t (by omega) (by omega)

/-- Order-statistic positions transfer through one partition step: the
sorted window of the pre-partition array reads, position by position,
from the sorted sub-windows of the partitioned array. -/
theorem partition_pos_transfer (A C : List ℚ) (low i high : ℕ)
    (hli : low ≤ i) (hih : i ≤ high)
    (hperm : List.Perm (segx C low (high+1)) (segx A low (high+1)))
    (hpre : ∀ t, low ≤ t → t < i → aget C t ≤ aget C i)
    (hsuf : ∀ t, i ≤ t → t ≤ high → aget C i ≤ aget C t) :
    (∀ m, low ≤ m → m < i →
      aget (List.insertionSort (· ≤ ·) (segx A low (high+1))) (m - low)
        = aget (List.insertionSort (· ≤ ·) (segx C low i)) (m - low)) ∧
    aget (List.insertionSort (· ≤ ·) (segx A low (high+1))) (i - low)
      = aget C i ∧
    (∀ m, i < m → m ≤ high →
      aget (List.insertionSort (· ≤ ·) (segx A low (high+1))) (m - low)
        = aget (List.insertionSort (· ≤ ·) (segx C (i+1) (high+1)))
            (m - i - 1)) := by
  have hsort : List.insertionSort (· ≤ ·) (segx A low (high+1))
      = List.insertionSort (· ≤ ·) (segx C low i) ++ aget C i ::
        List.insertionSort (· ≤ ·) (segx C (i+1) (high+1)) := by
    rw [← insertionSort_eq_of_perm hperm]
    exact sort_seg_partition C low i high hli hih hpre hsuf
  have hlenL : (List.insertionSort (· ≤ ·) (segx C low i)).length = i - low := by
    rw [List.length_insertionSort, length_segx]
  refine ⟨?_, ?_, ?_⟩
  · intro m hm1 hm2
    rw [hsort]
    unfold aget
    rw [List.getD_append _ _ _ _ (by omega)]
  · rw [hsort]
    unfold aget
    rw [List.getD_append_right _ _ _ _ (by omega)]
    simp [hlenL]
  · intro m hm1 hm2
    rw [hsort]
    unfold aget
    rw [List.getD_append_right _ _ _ _ (by omega), hlenL]
    rw [show m - low - (i - low) = (m - i - 1) + 1 from by omega]
    simp

/-- The narrowing loop of `_select` computes order statistics: position
`k` of the final array holds the `(k - low)`'th element of the sorted
window, the window is only permuted, and everything outside is kept. -/
theorem select_loop_spec :
    ∀ (fuel : ℕ) (A : List ℚ) (k low high : ℕ),
      low ≤ k → k ≤ high → high < A.length → high + 1 - low ≤ fuel →
      (_select_loop _partition fuel A k low high).length = A.length ∧
      (∀ t, t < low ∨ high < t →
        aget (_select_loop _partition fuel A k low high) t = aget A t) ∧
      List.Perm
        (segx (_select_loop _partition fuel A k low high) low (high+1))
        (segx A low (high+1)) ∧
      aget (_select_loop _partition fuel A k low high) k
        = aget (List.insertionSort (· ≤ ·) (segx A low (high+1)))
            (k - low) := by
  intro fuel
  induction fuel with
  | zero =>
    intro A k low high h1 h2 h3 hf
    omega
  | succ fuel ih =>
    intro A k low high h1 h2 h3 hf
    obtain ⟨p1, p2, p3, p4, p5, p6, p7⟩ := partition_spec A low high
      (by omega) h3
    obtain ⟨w1, w2, w3⟩ := partition_pos_transfer A (_partition A low high).1
      low (_partition A low high).2 high p2 p3 p5 p6 p7
    simp only [_select_loop]
    by_cases hk : (_partition A low high).2 = k
    · rw [if_pos hk]
      refine ⟨p1, p4, p5, ?_⟩
      rw [← hk]
      exact w2.symm
    · rw [if_neg hk]
      by_cases hlt : (_partition A low high).2 < k
      · rw [if_pos hlt]
        obtain ⟨q1, q2, q3, q4⟩ := ih (_partition A low high).1 k
          ((_partition A low high).2 + 1) high (by omega) h2 (by omega)
          (by omega)
        refine ⟨q1.trans p1, ?_, ?_, ?_⟩
        · intro t ht
          rw [q2 t (by omega), p4 t ht]
        · have hsplit1 : segx (_select_loop _partition fuel
              (_partition A low high).1 k ((_partition A low high).2 + 1)
              high) low (high+1)
              = segx (_select_loop _partition fuel (_partition A low high).1
                  k ((_partition A low high).2 + 1) high) low
                  ((_partition A low high).2 + 1)
                ++ segx (_select_loop _partition fuel
                  (_partition A low high).1 k
                  ((_partition A low high).2 + 1) high)
                  ((_partition A low high).2 + 1) (high+1) :=
            segx_append _ (by omega) (by omega)
          have hsplit2 : segx (_partition A low high).1 low (high+1)
              = segx (_partition A low high).1 low
                  ((_partition A low high).2 + 1)
                ++ segx (_partition A low high).1
                  ((_partition A low high).2 + 1) (high+1) :=
            segx_append _ (by omega) (by omega)
          rw [hsplit1]
          refine List.Perm.trans ?_ p5
          rw [hsplit2]
          refine List.Perm.append ?_ q3
          rw [segx_congr (fun t ht1 ht2 => q2 t (by omega))]
        · rw [q4, show k - ((_partition A low high).2 + 1)
            = k - (_partition A low high).2 - 1 from by omega]
          exact (w3 k (by omega) (by omega)).symm
      · rw [if_neg hlt]
        have hgt : k < (_partition A low high).2 := by omega
        obtain ⟨q1, q2, q3, q4⟩ := ih (_partition A low high).1 k low
          ((_partition A low high).2 - 1) h1 (by omega) (by omega) (by omega)
        have hr2 : (_partition A low high).2 - 1 + 1
            = (_partition A low high).2 := by omega
        refine ⟨q1.trans p1, ?_, ?_, ?_⟩
        · intro t ht
          rw [q2 t (by omega), p4 t ht]
        · have hsplit1 : segx (_select_loop _partition fuel
              (_partition A low high).1 k low
              ((_partition A low high).2 - 1)) low (high+1)
              = segx (_select_loop _partition fuel (_partition A low high).1
                  k low ((_partition A low high).2 - 1)) low
                  (_partition A low high).2
                ++ segx (_select_loop _partition fuel
                  (_partition A low high).1 k low
                  ((_partition A low high).2 - 1))
                  (_partition A low high).2 (high+1) :=
            segx_append _ (by omega) (by omega)
          have hsplit2 : segx (_partition A low high).1 low (high+1)
              = segx (_partition A low high).1 low (_partition A low high).2
                ++ segx (_partition A low high).1 (_partition A low high).2
                  (high+1) :=
            segx_append _ (by omega) (by omega)
          rw [hsplit1]
          refine List.Perm.trans ?_ p5
          rw [hsplit2]
          refine List.Perm.append ?_ ?_
          · rw [← hr2]
            exact q3
          · rw [segx_congr (fun t ht1 ht2 => q2 t (by omega))]
        · rw [q4, hr2]
          exact (w1 k h1 hgt).symm
  -- end

/-- `_select_factory(_partition)`: final array state. -/
theorem select_arr_spec (A : List ℚ) (k low high : ℕ) (h1 : low ≤ k)
    (h2 : k ≤ high) (h3 : high < A.length) :
    (_select_arr _partition A k low high).length = A.length ∧
    (∀ t, t < low ∨ high < t →
      aget (_select_arr _partition A k low high) t = aget A t) ∧
    List.Perm (segx (_select_arr _partition A k low high) low (high+1))
      (segx A low (high+1)) ∧
    aget (_select_arr _partition A k low high) k
      = aget (List.insertionSort (· ≤ ·) (segx A low (high+1))) (k - low) :=
  select_loop_spec (high + 1 - low) A k low high h1 h2 h3 (le_refl _)

/-- The narrowing loop of `_select_two`: the assertion passes throughout
and positions `k` and `k+1` of the final array hold the two adjacent
order statistics of the sorted window. -/
theorem select_two_loop_spec :
    ∀ (fuel : ℕ) (A : List ℚ) (k low high : ℤ),
      0 ≤ low → low ≤ k → k + 1 ≤ high → high < (A.length : ℤ) →
      (high - low).toNat + 1 ≤ fuel →
      ∃ C, _select_two_loop less_than fuel A k low high = .ok C ∧
        C.length = A.length ∧
        (∀ t : ℕ, (t : ℤ) < low ∨ high < (t : ℤ) → aget C t = aget A t) ∧
        List.Perm (segx C low.toNat (high.toNat + 1))
          (segx A low.toNat (high.toNat + 1)) ∧
        aget C k.toNat
          = aget (List.insertionSort (· ≤ ·)
              (segx A low.toNat (high.toNat + 1))) (k.toNat - low.toNat) ∧
        aget C (k+1).toNat
          = aget (List.insertionSort (· ≤ ·)
              (segx A low.toNat (high.toNat + 1))) ((k+1).toNat - low.toNat) := by
  intro fuel
  induction fuel with
  | zero =>
    intro A k low high h0 h1 h2 h3 hf
    omega
  | succ fuel ih =>
    intro A k low high h0 h1 h2 h3 hf
    have hlh : low < high := by omega
    obtain ⟨p1, p2, p3, p4, p5, p6, p7⟩ := partition_spec A low.toNat
      high.toNat (by omega) (by omega)
    obtain ⟨w1, w2, w3⟩ := partition_pos_transfer A
      (_partition A low.toNat high.toNat).1 low.toNat
      (_partition A low.toNat high.toNat).2 high.toNat p2 p3 p5 p6 p7
    simp only [_select_two_loop]
    rw [if_neg (not_not_intro hlh),
      show (_partition_factory less_than : List ℚ → ℕ → ℕ → List ℚ × ℕ)
        = _partition from rfl]
    by_cases hik : ((_partition A low.toNat high.toNat).2 : ℤ) < k
    · rw [if_pos hik]
      obtain ⟨C, e, c1, c2, c3, c4, c5⟩ := ih
        (_partition A low.toNat high.toNat).1 k
        (((_partition A low.toNat high.toNat).2 : ℤ) + 1) high
        (by omega) (by omega) h2 (by omega) (by omega)
      have htn : ((((_partition A low.toNat high.toNat).2 : ℤ)) + 1).toNat
          = (_partition A low.toNat high.toNat).2 + 1 := by omega
      rw [htn] at c3 c4 c5
      refine ⟨C, e, c1.trans p1, ?_, ?_, ?_, ?_⟩
      · intro t ht
        rw [c2 t (by omega), p4 t (by omega)]
      · have hself : segx C low.toNat
            ((_partition A low.toNat high.toNat).2 + 1)
            = segx (_partition A low.toNat high.toNat).1 low.toNat
                ((_partition A low.toNat high.toNat).2 + 1) :=
          segx_congr (fun t ht1 ht2 => c2 t (by omega))
        rw [segx_append C (show low.toNat
            ≤ (_partition A low.toNat high.toNat).2 + 1 from by omega)
            (by omega), hself]
        refine List.Perm.trans (List.Perm.append (List.Perm.refl _) c3) ?_
        rw [← segx_append (_partition A low.toNat high.toNat).1
          (show low.toNat ≤ (_partition A low.toNat high.toNat).2 + 1
            from by omega) (by omega)]
        exact p5
      · rw [c4, show k.toNat - ((_partition A low.toNat high.toNat).2 + 1)
          = k.toNat - (_partition A low.toNat high.toNat).2 - 1 from by omega]
        exact (w3 k.toNat (by omega) (by omega)).symm
      · rw [c5, show (k+1).toNat - ((_partition A low.toNat high.toNat).2 + 1)
          = (k+1).toNat - (_partition A low.toNat high.toNat).2 - 1
          from by omega]
        exact (w3 (k+1).toNat (by omega) (by omega)).symm
    · rw [if_neg hik]
      by_cases hki : k + 1 < ((_partition A low.toNat high.toNat).2 : ℤ)
      · rw [if_pos hki]
        obtain ⟨C, e, c1, c2, c3, c4, c5⟩ := ih
          (_partition A low.toNat high.toNat).1 k low
          (((_partition A low.toNat high.toNat).2 : ℤ) - 1)
          h0 h1 (by omega) (by omega) (by omega)
        have htn : ((((_partition A low.toNat high.toNat).2 : ℤ)) - 1).toNat + 1
            = (_partition A low.toNat high.toNat).2 := by omega
        rw [htn] at c3 c4 c5
        refine ⟨C, e, c1.trans p1, ?_, ?_, ?_, ?_⟩
        · intro t ht
          rw [c2 t (by omega), p4 t (by omega)]
        · have hself : segx C (_partition A low.toNat high.toNat).2
              (high.toNat + 1)
              = segx (_partition A low.toNat high.toNat).1
                  (_partition A low.toNat high.toNat).2 (high.toNat + 1) :=
            segx_congr (fun t ht1 ht2 => c2 t (by omega))
          rw [segx_append C (show low.toNat
              ≤ (_partition A low.toNat high.toNat).2 from by omega)
              (by omega), hself]
          refine List.Perm.trans (List.Perm.append c3 (List.Perm.refl _)) ?_
          rw [← segx_append (_partition A low.toNat high.toNat).1
            (show low.toNat ≤ (_partition A low.toNat high.toNat).2
              from by omega) (by omega)]
          exact p5
        · rw [c4]
          exact (w1 k.toNat (by omega) (by omega)).symm
        · rw [c5]
          exact (w1 (k+1).toNat (by omega) (by omega)).symm
      · rw [if_neg hki]
        by_cases heq : ((_partition A low.toNat high.toNat).2 : ℤ) = k
        · rw [if_pos heq]
          have hkn : (_partition A low.toNat high.toNat).2 = k.toNat := by
            omega
          have htn1 : (((_partition A low.toNat high.toNat).2 : ℤ) + 1).toNat
              = (_partition A low.toNat high.toNat).2 + 1 := by omega
          rw [htn1]
          obtain ⟨s1, s2, s3, s4⟩ := select_arr_spec
            (_partition A low.toNat high.toNat).1 (k+1).toNat
            ((_partition A low.toNat high.toNat).2 + 1) high.toNat
            (by omega) (by omega) (by omega)
          refine ⟨_, rfl, s1.trans p1, ?_, ?_, ?_, ?_⟩
          · intro t ht
            rw [s2 t (by omega), p4 t (by omega)]
          · have hself : segx (_select_arr _partition
                (_partition A low.toNat high.toNat).1 (k+1).toNat
                ((_partition A low.toNat high.toNat).2 + 1) high.toNat)
                low.toNat ((_partition A low.toNat high.toNat).2 + 1)
                = segx (_partition A low.toNat high.toNat).1 low.toNat
                    ((_partition A low.toNat high.toNat).2 + 1) :=
              segx_congr (fun t ht1 ht2 => s2 t (by omega))
            rw [segx_append (_select_arr _partition
                (_partition A low.toNat high.toNat).1 (k+1).toNat
                ((_partition A low.toNat high.toNat).2 + 1) high.toNat)
                (show low.toNat ≤ (_partition A low.toNat high.toNat).2 + 1
                  from by omega) (by omega), hself]
            refine List.Perm.trans (List.Perm.append (List.Perm.refl _) s3) ?_
            rw [← segx_append (_partition A low.toNat high.toNat).1
              (show low.toNat ≤ (_partition A low.toNat high.toNat).2 + 1
                from by omega) (by omega)]
            exact p5
          · rw [s2 k.toNat (by omega), ← hkn]
            exact w2.symm
          · rw [s4, show (k+1).toNat - ((_partition A low.toNat high.toNat).2
                + 1) = (k+1).toNat - (_partition A low.toNat high.toNat).2 - 1
              from by omega]
            exact (w3 (k+1).toNat (by omega) (by omega)).symm
        · rw [if_neg heq]
          have heq2 : ((_partition A low.toNat high.toNat).2 : ℤ) = k + 1 := by
            omega
          have hkn : (_partition A low.toNat high.toNat).2 = (k+1).toNat := by
            omega
          have htn1 : (((_partition A low.toNat high.toNat).2 : ℤ) - 1).toNat + 1
              = (_partition A low.toNat high.toNat).2 := by omega
          obtain ⟨s1, s2, s3, s4⟩ := select_arr_spec
            (_partition A low.toNat high.toNat).1 k.toNat low.toNat
            ((((_partition A low.toNat high.toNat).2 : ℤ) - 1).toNat)
            (by omega) (by omega) (by omega)
          rw [htn1] at s3 s4
          refine ⟨_, rfl, s1.trans p1, ?_, ?_, ?_, ?_⟩
          · intro t ht
            rw [s2 t (by omega), p4 t (by omega)]
          · have hself : segx (_select_arr _partition
                (_partition A low.toNat high.toNat).1 k.toNat low.toNat
                ((((_partition A low.toNat high.toNat).2 : ℤ) - 1).toNat))
                (_partition A low.toNat high.toNat).2 (high.toNat + 1)
                = segx (_partition A low.toNat high.toNat).1
                    (_partition A low.toNat high.toNat).2 (high.toNat + 1) :=
              segx_congr (fun t ht1 ht2 => s2 t (by omega))
            rw [segx_append (_select_arr _partition
                (_partition A low.toNat high.toNat).1 k.toNat low.toNat
                ((((_partition A low.toNat high.toNat).2 : ℤ) - 1).toNat))
                (show low.toNat ≤ (_partition A low.toNat high.toNat).2
                  from by omega) (by omega), hself]
            refine List.Perm.trans (List.Perm.append s3 (List.Perm.refl _)) ?_
            rw [← segx_append (_partition A low.toNat high.toNat).1
              (show low.toNat ≤ (_partition A low.toNat high.toNat).2
                from by omega) (by omega)]
            exact p5
          · rw [s4]
            exact (w1 k.toNat (by omega) (by omega)).symm
          · rw [s2 (k+1).toNat (by omega), ← hkn]
            exact w2.symm

/-- `_select_two` succeeds and returns the adjacent order statistics at
ranks `k` and `k+1` of the sorted window. -/
theorem select_two_spec (A : List ℚ) (k low high : ℤ) (h0 : 0 ≤ low)
    (h1 : low ≤ k) (h2 : k + 1 ≤ high) (h3 : high < (A.length : ℤ)) :
    ∃ C, _select_two less_than A k low high
      = .ok (C,
          aget (List.insertionSort (· ≤ ·) (segx A low.toNat (high.toNat+1)))
            (k.toNat - low.toNat),
          aget (List.insertionSort (· ≤ ·) (segx A low.toNat (high.toNat+1)))
            ((k+1).toNat - low.toNat)) := by
  obtain ⟨C, e, c1, c2, c3, c4, c5⟩ := select_two_loop_spec
    ((high - low).toNat + 1) A k low high h0 h1 h2 h3 (le_refl _)
  refine ⟨C, ?_⟩
  unfold _select_two
  rw [e]
  show Except.ok (C, aget C k.toNat, aget C (k+1).toNat) = _
  rw [c4, c5]

/-- C1: for every non-empty array, `np.median` succeeds and equals the
middle of a full sort: the order statistic at rank `n/2` for odd `n`,
and (via `_select_two`) the average of the order statistics at ranks
`n/2 - 1` and `n/2` for even `n`.  The kernel is embedded as a pure
function on the value list, modelling that the source mutates only the
flattened copy `a.flatten()`, never the caller's array. -/
theorem np_median_spec (a : List ℚ) (h : a ≠ []) :
    np_median a = .ok (if a.length % 2 = 1
      then aget (List.insertionSort (· ≤ ·) a) (a.length / 2)
      else (aget (List.insertionSort (· ≤ ·) a) (a.length / 2 - 1)
           + aget (List.insertionSort (· ≤ ·) a) (a.length / 2)) / 2) := by
  have hn : 1 ≤ a.length := List.length_pos.mpr h
  simp only [np_median, _median_inner, Nat.shiftRight_one]
  by_cases hpar : a.length % 2 = 0
  · rw [if_pos hpar, if_neg (by omega)]
    obtain ⟨C, e⟩ := select_two_spec a (((a.length / 2 : ℕ) : ℤ) - 1) 0
      ((a.length : ℤ) - 1) (le_refl _) (by omega) (by omega) (by omega)
    rw [e]
    show Except.ok _ = _
    rw [show (((a.length : ℤ) - 1)).toNat + 1 = a.length from by omega,
      Int.toNat_zero, segx_all,
      show ((((a.length / 2 : ℕ) : ℤ) - 1)).toNat = a.length / 2 - 1
        from by omega,
      show ((((a.length / 2 : ℕ) : ℤ) - 1) + 1).toNat = a.length / 2
        from by omega,
      Nat.sub_zero, Nat.sub_zero]
  · rw [if_neg hpar, if_pos (by omega)]
    obtain ⟨s1, s2, s3, s4⟩ := select_arr_spec a (a.length / 2) 0
      (a.length - 1) (Nat.zero_le _) (by omega) (by omega)
    unfold _select
    rw [s4, show a.length - 1 + 1 = a.length from by omega, segx_all,
      Nat.sub_zero]

/-- The median checked at the spec's concrete example `[3, 1, 2]`. -/
theorem np_median_spec_witness :
    ([3, 1, 2] : List ℚ) ≠ [] ∧
    np_median [3, 1, 2] = .ok (if ([3, 1, 2] : List ℚ).length % 2 = 1
      then aget (List.insertionSort (· ≤ ·) ([3, 1, 2] : List ℚ))
        (([3, 1, 2] : List ℚ).length / 2)
      else (aget (List.insertionSort (· ≤ ·) ([3, 1, 2] : List ℚ))
        (([3, 1, 2] : List ℚ).length / 2 - 1)
           + aget (List.insertionSort (· ≤ ·) ([3, 1, 2] : List ℚ))
        (([3, 1, 2] : List ℚ).length / 2)) / 2) :=
  ⟨by simp, np_median_spec [3, 1, 2] (by simp)⟩

end QuickselectSpec

end NumbaSpec
